import Mathlib

/-!
# A* grid search (`A_Star.cpp`): shallow embedding and verification

This file embeds the A* path finder of `A_Star.cpp` in Lean and proves the
specification claims about it.

Modelling conventions:
* C++ `int` coordinates become `Int`; the cost fields of `Node` are `double`
  in the source but only ever hold the non-negative integers
  `0, 1, 2, ...` (the start cost is `0.0`, every move adds `1.0`, and the
  Manhattan heuristic is a non-negative integer), so they are embedded as
  `Nat`; all comparisons performed by the source on these values coincide
  with the `Nat` comparisons.
* `std::map<Point, _>` becomes an association list with insert-or-replace
  update (`insertPtN` / `insertPtP`); only lookup and update semantics of the
  map are relevant, not its iteration order.
* `std::priority_queue<Node, vector<Node>, greater<Node>>` becomes a list
  with `popMin`, which removes one element of minimal `f_cost` (the
  comparator of `Node::operator>` orders by `f_cost` only, so ties are
  broken arbitrarily by the heap; every theorem below depends only on the
  popped node being a minimal-`f` member of the queue).
* The C++ `while` loop becomes the fuel-indexed `aStarLoop`; `none` means
  the fuel ran out.  `a_star_search` runs the loop with `searchFuel`, and we
  prove that this fuel is never exhausted, so `none` is unreachable and the
  C++ function's result is the `some` payload (`some []` is the "no path
  found" result of line 93 of the source).
* Path reconstruction (source lines 64-73) becomes `reconstruct`; the C++
  `parents[curr]` lookup on a missing key would default-insert `{0,0}`
  (a degenerate `std::map::operator[]` behaviour); `reconstruct` returns
  `none` in that situation and we prove it never occurs in a run.
-/

/-- `struct Point { int x, y; }` of the source. -/
structure Point where
  x : Int
  y : Int
deriving DecidableEq, Repr

/-- `struct Node` of the source: a search node with its cell, costs and
parent cell.  The `double` cost fields are embedded as `Nat` (see the file
header). -/
structure Node where
  p : Point
  g_cost : Nat
  h_cost : Nat
  f_cost : Nat
  parent : Point
deriving DecidableEq, Repr

/-- `calculate_heuristic` of the source: the Manhattan distance
`|p1.x - p2.x| + |p1.y - p2.y|`. -/
def calculate_heuristic (p1 p2 : Point) : Nat :=
  (p1.x - p2.x).natAbs + (p1.y - p2.y).natAbs

/-- Reading `grid[p.x][p.y]`: `none` when either index is out of range of
the actual vectors. -/
def gridCell (grid : List (List Nat)) (p : Point) : Option Nat :=
  match grid.get? p.x.toNat with
  | some row => row.get? p.y.toNat
  | none => none

/-- `is_valid` of the source: inside `[0, rows) × [0, cols)` and the grid
marks the cell `0` (free).  The source's short-circuit `&&` only reads the
grid after the bounds checks succeed; here an out-of-range read yields
`none ≠ some 0`, which coincides with the source on well-shaped grids
(see `is_validChecked`). -/
def is_valid (p : Point) (rows cols : Int) (grid : List (List Nat)) : Bool :=
  decide (0 ≤ p.x) && decide (p.x < rows) && decide (0 ≤ p.y) && decide (p.y < cols)
    && (gridCell grid p == some 0)

/-- Variant of `is_valid` that makes the memory access explicit: it returns
`none` if it would read the grid out of range, and `some` of the source's
answer otherwise.  The bounds checks are performed before any read, exactly
as the short-circuit `&&` of source line 43. -/
def is_validChecked (p : Point) (rows cols : Int) (grid : List (List Nat)) : Option Bool :=
  if 0 ≤ p.x ∧ p.x < rows ∧ 0 ≤ p.y ∧ p.y < cols then
    match gridCell grid p with
    | some v => some (v == 0)
    | none => none
  else
    some false

/-- The grid really is a `rows × cols` matrix (the implicit precondition of
the C++ `vector` indexing). -/
def WellShaped (grid : List (List Nat)) (rows cols : Int) : Prop :=
  grid.length = rows.toNat ∧ ∀ row ∈ grid, row.length = cols.toNat

/-- Association-list lookup for `std::map<Point, β>`. -/
def lookupPt {β : Type} : List (Point × β) → Point → Option β
  | [], _ => none
  | (k, w) :: rest, c => if c = k then some w else lookupPt rest c

/-- Insert-or-replace update for `std::map<Point, β>` (`m[p] = v`). -/
def insertPt {β : Type} : List (Point × β) → Point → β → List (Point × β)
  | [], c, v => [(c, v)]
  | (k, w) :: rest, c, v => if c = k then (c, v) :: rest else (k, w) :: insertPt rest c v

/-- Remove one element of minimal `f_cost` from the queue (`top` + `pop` of
the `std::priority_queue` with the `greater<Node>` comparator, which orders
by `f_cost` only).  Among equal `f_cost` the leftmost element is taken; the
heap's tie order is unspecified, and no theorem below depends on it. -/
def popMin : List Node → Option (Node × List Node)
  | [] => none
  | n :: rest =>
    match popMin rest with
    | none => some (n, [])
    | some (m, rest') => if n.f_cost ≤ m.f_cost then some (n, rest) else some (m, n :: rest')

/-- The mutable state of the search: the open list, the `g_costs` map and
the `parents` map of source lines 48-50. -/
structure AState where
  open_list : List Node
  g_costs : List (Point × Nat)
  parents : List (Point × Point)
deriving Repr

/-- The four movement directions of source lines 56-57:
`dx = {-1,1,0,0}`, `dy = {0,0,-1,1}`. -/
def dirsList : List (Int × Int) := [(-1, 0), (1, 0), (0, -1), (0, 1)]

/-- The body of the `for` loop over one direction (source lines 76-89):
if the neighbour is valid and its tentative cost is new or strictly better,
record the cost and parent and push a fresh node. -/
def relaxStep (goal : Point) (rows cols : Int) (grid : List (List Nat))
    (current : Node) (st : AState) (d : Int × Int) : AState :=
  let neighbor_p : Point := ⟨current.p.x + d.1, current.p.y + d.2⟩
  if is_valid neighbor_p rows cols grid then
    let new_g_cost := current.g_cost + 1
    let improves : Bool :=
      match lookupPt st.g_costs neighbor_p with
      | none => true
      | some old => decide (new_g_cost < old)
    if improves then
      let h_cost := calculate_heuristic neighbor_p goal
      let f_cost := new_g_cost + h_cost
      { open_list := st.open_list ++ [⟨neighbor_p, new_g_cost, h_cost, f_cost, current.p⟩],
        g_costs := insertPt st.g_costs neighbor_p new_g_cost,
        parents := insertPt st.parents neighbor_p current.p }
    else st
  else st

/-- Path reconstruction (source lines 64-73): follow `parents` from `curr`
back to `start`, collecting the cells, and produce the path in start-to-goal
order.  A missing `parents` entry (where the C++ `operator[]` would
default-insert `{0,0}`) and fuel exhaustion both give `none`; we prove
neither occurs when the search reaches the goal. -/
def reconstruct (parents : List (Point × Point)) (start : Point) :
    Nat → Point → Option (List Point)
  | 0, _ => none
  | fuelR + 1, curr =>
    if curr = start then some [start]
    else
      match lookupPt parents curr with
      | some par =>
        match reconstruct parents start fuelR par with
        | some pre => some (pre ++ [curr])
        | none => none
      | none => none

/-- The `while (!open_list.empty())` loop of source lines 59-91, indexed by
fuel.  An empty queue returns `some []` ("no path found", line 93); popping
the goal reconstructs the path (lines 63-73); otherwise the four neighbours
are relaxed and the loop continues. -/
def aStarLoop (start goal : Point) (rows cols : Int) (grid : List (List Nat)) :
    Nat → AState → Option (List Point)
  | 0, _ => none
  | fuel + 1, st =>
    match popMin st.open_list with
    | none => some []
    | some (current, rest) =>
      if current.p = goal then
        reconstruct st.parents start (st.parents.length + 1) goal
      else
        aStarLoop start goal rows cols grid fuel
          (dirsList.foldl (relaxStep goal rows cols grid current)
            { st with open_list := rest })

/-- Fuel that provably suffices for every input (established by the
termination development below). -/
def searchFuel (rows cols : Int) : Nat :=
  5 * ((rows.toNat * cols.toNat + 1) * (rows.toNat * cols.toNat + 1)) + 2

/-- `a_star_search` of the source.  `some path` is the returned vector
(`some []` is the "no path found" empty vector of line 93); `none` would
mean the fuel of the loop embedding ran out, which is proven impossible. -/
def a_star_search (start goal : Point) (rows cols : Int)
    (grid : List (List Nat)) : Option (List Point) :=
  let h := calculate_heuristic start goal
  let start_node : Node := ⟨start, 0, h, h, ⟨-1, -1⟩⟩
  aStarLoop start goal rows cols grid (searchFuel rows cols)
    ⟨[start_node], [(start, 0)], []⟩

/-! ## Specification-side path predicates -/

/-- One 4-directional (orthogonal, unit) step. -/
def isStep (a b : Point) : Bool :=
  (b.x - a.x).natAbs + (b.y - a.y).natAbs == 1

/-- The cells of `P` form a 4-directional walk. -/
def pathSteps (P : List Point) : Prop :=
  List.Chain' (fun a b => isStep a b = true) P

/-- A walk from `start` to `goal` all of whose cells after the first pass
the validity check.  (The first cell is `start` itself, which the source
enqueues without any check.) -/
def SemiPath (rows cols : Int) (grid : List (List Nat))
    (start goal : Point) (P : List Point) : Prop :=
  P.head? = some start ∧ P.getLast? = some goal ∧ pathSteps P ∧
    ∀ c ∈ P.tail, is_valid c rows cols grid = true

/-- A valid 4-directional path from `start` to `goal` through free, in-bounds
cells (the comparison class of the optimality claims). -/
def ValidPath (rows cols : Int) (grid : List (List Nat))
    (start goal : Point) (P : List Point) : Prop :=
  P.head? = some start ∧ P.getLast? = some goal ∧ pathSteps P ∧
    ∀ c ∈ P, is_valid c rows cols grid = true

theorem ValidPath.toSemiPath {rows cols grid start goal P}
    (h : ValidPath rows cols grid start goal P) :
    SemiPath rows cols grid start goal P :=
  ⟨h.1, h.2.1, h.2.2.1, fun c hc => h.2.2.2 c (List.mem_of_mem_tail hc)⟩

/-! ## Association-list lemmas -/

theorem lookupPt_insertPt {β : Type} (m : List (Point × β)) (c : Point) (v : β) (c' : Point) :
    lookupPt (insertPt m c v) c' = if c' = c then some v else lookupPt m c' := by
  induction m with
  | nil =>
    by_cases h : c' = c <;> simp [insertPt, lookupPt, h]
  | cons head rest ih =>
    obtain ⟨k, w⟩ := head
    simp only [insertPt]
    by_cases hck : c = k
    · rw [if_pos hck]
      subst hck
      simp only [lookupPt]
      by_cases h : c' = c <;> simp [h]
    · rw [if_neg hck]
      show (if c' = k then some w else lookupPt (insertPt rest c v) c') = _
      rw [ih]
      simp only [lookupPt]
      by_cases h1 : c' = k <;> by_cases h2 : c' = c
      · exact absurd (by rw [← h2, h1]) hck
      · simp [h1, h2, Ne.symm hck]
      · simp [h1, h2, hck]
      · simp [h1, h2]

theorem mem_of_lookupPt {β : Type} {m : List (Point × β)} {c : Point} {v : β}
    (h : lookupPt m c = some v) : (c, v) ∈ m := by
  induction m with
  | nil => simp [lookupPt] at h
  | cons head rest ih =>
    obtain ⟨k, w⟩ := head
    simp only [lookupPt] at h
    by_cases hck : c = k
    · rw [if_pos hck] at h
      have hv : w = v := by injection h
      subst hv
      subst hck
      exact List.mem_cons_self _ _
    · rw [if_neg hck] at h
      exact List.mem_cons_of_mem _ (ih h)

theorem lookupPt_eq_some_of_mem {β : Type} {m : List (Point × β)} {c : Point} {v : β}
    (hnd : (m.map Prod.fst).Nodup) (h : (c, v) ∈ m) : lookupPt m c = some v := by
  induction m with
  | nil => simp at h
  | cons head rest ih =>
    obtain ⟨k, w⟩ := head
    simp only [List.map_cons, List.nodup_cons] at hnd
    rcases List.mem_cons.mp h with h1 | h1
    · have hc : c = k := congrArg Prod.fst h1
      have hv : v = w := congrArg Prod.snd h1
      subst hc; subst hv
      simp [lookupPt]
    · have hck : c ≠ k := by
        rintro rfl
        exact hnd.1 (List.mem_map.mpr ⟨(c, v), h1, rfl⟩)
      simpa [lookupPt, hck] using ih hnd.2 h1

theorem lookupPt_eq_none_iff {β : Type} {m : List (Point × β)} {c : Point} :
    lookupPt m c = none ↔ c ∉ m.map Prod.fst := by
  induction m with
  | nil => simp [lookupPt]
  | cons head rest ih =>
    obtain ⟨k, w⟩ := head
    by_cases hck : c = k
    · subst hck
      simp [lookupPt]
    · simp [lookupPt, hck, ih, Ne.symm hck]

theorem lookupPt_isSome_of_mem {β : Type} {m : List (Point × β)} {c : Point} {v : β}
    (h : (c, v) ∈ m) : (lookupPt m c).isSome := by
  rcases ho : lookupPt m c with _ | w
  · exact absurd (List.mem_map.mpr ⟨(c, v), h, rfl⟩) (lookupPt_eq_none_iff.mp ho)
  · rfl

theorem mem_insertPt_iff {β : Type} {m : List (Point × β)} {c : Point} {v : β}
    (hnd : (m.map Prod.fst).Nodup) {q : Point × β} :
    q ∈ insertPt m c v ↔ q = (c, v) ∨ (q ∈ m ∧ q.1 ≠ c) := by
  induction m with
  | nil =>
    constructor
    · intro hq
      exact Or.inl (List.mem_singleton.mp hq)
    · rintro (rfl | ⟨hq, _⟩)
      · exact List.mem_singleton.mpr rfl
      · simp at hq
  | cons head rest ih =>
    obtain ⟨k, w⟩ := head
    simp only [List.map_cons, List.nodup_cons] at hnd
    by_cases hck : c = k
    · subst hck
      rw [show insertPt ((c, w) :: rest) c v = (c, v) :: rest from by simp [insertPt]]
      constructor
      · intro hq
        rcases List.mem_cons.mp hq with rfl | hq1
        · exact Or.inl rfl
        · refine Or.inr ⟨List.mem_cons_of_mem _ hq1, ?_⟩
          intro h1
          exact hnd.1 (List.mem_map.mpr ⟨q, hq1, h1⟩)
      · rintro (rfl | ⟨hq, hne⟩)
        · exact List.mem_cons_self _ _
        · rcases List.mem_cons.mp hq with h1 | h1
          · exact absurd (congrArg Prod.fst h1) hne
          · exact List.mem_cons_of_mem _ h1
    · rw [show insertPt ((k, w) :: rest) c v = (k, w) :: insertPt rest c v from by
        simp [insertPt, hck]]
      constructor
      · intro hq
        rcases List.mem_cons.mp hq with rfl | hq1
        · exact Or.inr ⟨List.mem_cons_self _ _, fun h1 => hck h1.symm⟩
        · rcases (ih hnd.2).mp hq1 with rfl | ⟨hq2, hne⟩
          · exact Or.inl rfl
          · exact Or.inr ⟨List.mem_cons_of_mem _ hq2, hne⟩
      · rintro (rfl | ⟨hq, hne⟩)
        · exact List.mem_cons_of_mem _ ((ih hnd.2).mpr (Or.inl rfl))
        · rcases List.mem_cons.mp hq with h1 | h1
          · exact h1 ▸ List.mem_cons_self _ _
          · exact List.mem_cons_of_mem _ ((ih hnd.2).mpr (Or.inr ⟨h1, hne⟩))

theorem nodupKeys_insertPt {β : Type} {m : List (Point × β)} {c : Point} {v : β}
    (hnd : (m.map Prod.fst).Nodup) : ((insertPt m c v).map Prod.fst).Nodup := by
  induction m with
  | nil => simp [insertPt]
  | cons head rest ih =>
    obtain ⟨k, w⟩ := head
    simp only [List.map_cons, List.nodup_cons] at hnd
    by_cases hck : c = k
    · subst hck
      simpa [insertPt] using hnd
    · rw [show insertPt ((k, w) :: rest) c v = (k, w) :: insertPt rest c v from by
        simp [insertPt, hck]]
      simp only [List.map_cons, List.nodup_cons]
      refine ⟨?_, ih hnd.2⟩
      intro hk
      rcases List.mem_map.mp hk with ⟨q, hq, hq1⟩
      rcases (mem_insertPt_iff hnd.2).mp hq with rfl | ⟨hq2, _⟩
      · exact hck hq1
      · exact hnd.1 (List.mem_map.mpr ⟨q, hq2, hq1⟩)

theorem length_insertPt_of_none {β : Type} {m : List (Point × β)} {c : Point} {v : β}
    (h : lookupPt m c = none) : (insertPt m c v).length = m.length + 1 := by
  induction m with
  | nil => simp [insertPt]
  | cons head rest ih =>
    obtain ⟨k, w⟩ := head
    simp only [lookupPt] at h
    by_cases hck : c = k
    · rw [if_pos hck] at h
      exact absurd h (by simp)
    · rw [if_neg hck] at h
      rw [show insertPt ((k, w) :: rest) c v = (k, w) :: insertPt rest c v from by
        simp [insertPt, hck]]
      simp [ih h]

theorem length_insertPt_of_some {β : Type} {m : List (Point × β)} {c : Point} {v w : β}
    (h : lookupPt m c = some w) : (insertPt m c v).length = m.length := by
  induction m with
  | nil => simp [lookupPt] at h
  | cons head rest ih =>
    obtain ⟨k, w'⟩ := head
    simp only [lookupPt] at h
    by_cases hck : c = k
    · subst hck
      simp [insertPt]
    · rw [if_neg hck] at h
      rw [show insertPt ((k, w') :: rest) c v = (k, w') :: insertPt rest c v from by
        simp [insertPt, hck]]
      simp [ih h]

theorem length_le_length_insertPt {β : Type} (m : List (Point × β)) (c : Point) (v : β) :
    m.length ≤ (insertPt m c v).length := by
  rcases h : lookupPt m c with _ | w
  · rw [length_insertPt_of_none h]; omega
  · rw [length_insertPt_of_some h]

/-- Sum of the recorded `g` costs (used by the termination measure). -/
def sumVals (m : List (Point × Nat)) : Nat := (m.map Prod.snd).sum

theorem sumVals_insertPt_of_some {m : List (Point × Nat)} {c : Point} {v w : Nat}
    (h : lookupPt m c = some w) : sumVals (insertPt m c v) + w = sumVals m + v := by
  induction m with
  | nil => simp [lookupPt] at h
  | cons head rest ih =>
    obtain ⟨k, w'⟩ := head
    simp only [lookupPt] at h
    by_cases hck : c = k
    · rw [if_pos hck] at h
      have hw : w' = w := by injection h
      subst hck
      rw [show insertPt ((c, w') :: rest) c v = (c, v) :: rest from by simp [insertPt]]
      simp only [sumVals, List.map_cons, List.sum_cons]
      omega
    · rw [if_neg hck] at h
      have := ih h
      rw [show insertPt ((k, w') :: rest) c v = (k, w') :: insertPt rest c v from by
        simp [insertPt, hck]]
      simp only [sumVals, List.map_cons, List.sum_cons] at *
      omega

theorem sumVals_insertPt_of_none {m : List (Point × Nat)} {c : Point} {v : Nat}
    (h : lookupPt m c = none) : sumVals (insertPt m c v) = sumVals m + v := by
  induction m with
  | nil => simp [insertPt, sumVals]
  | cons head rest ih =>
    obtain ⟨k, w'⟩ := head
    simp only [lookupPt] at h
    by_cases hck : c = k
    · rw [if_pos hck] at h
      exact absurd h (by simp)
    · rw [if_neg hck] at h
      have := ih h
      rw [show insertPt ((k, w') :: rest) c v = (k, w') :: insertPt rest c v from by
        simp [insertPt, hck]]
      simp only [sumVals, List.map_cons, List.sum_cons] at *
      omega

/-! ## Queue lemmas -/

theorem popMin_eq_none_iff (l : List Node) : popMin l = none ↔ l = [] := by
  cases l with
  | nil => simp [popMin]
  | cons n rest =>
    simp only [popMin]
    rcases popMin rest with _ | ⟨m, rest'⟩
    · simp
    · by_cases h : n.f_cost ≤ m.f_cost <;> simp [h]

theorem popMin_perm : ∀ {l : List Node} {n : Node} {rest : List Node},
    popMin l = some (n, rest) → l.Perm (n :: rest) := by
  intro l
  induction l with
  | nil => intro n rest h; simp [popMin] at h
  | cons a tail ih =>
    intro n rest h
    rcases hp : popMin tail with _ | ⟨m, rest'⟩
    · have he : popMin (a :: tail) = some (a, []) := by rw [popMin, hp]
      rw [he] at h
      rw [popMin_eq_none_iff] at hp
      subst hp
      simp only [Option.some.injEq, Prod.mk.injEq] at h
      rw [← h.1, ← h.2]
    · have he : popMin (a :: tail) =
          if a.f_cost ≤ m.f_cost then some (a, tail) else some (m, a :: rest') := by
        rw [popMin, hp]
      rw [he] at h
      by_cases hle : a.f_cost ≤ m.f_cost
      · rw [if_pos hle] at h
        simp only [Option.some.injEq, Prod.mk.injEq] at h
        rw [← h.1, ← h.2]
      · rw [if_neg hle] at h
        simp only [Option.some.injEq, Prod.mk.injEq] at h
        rw [← h.1, ← h.2]
        exact (List.Perm.cons a (ih hp)).trans (List.Perm.swap m a rest')

theorem popMin_min : ∀ {l : List Node} {n : Node} {rest : List Node},
    popMin l = some (n, rest) → ∀ q ∈ l, n.f_cost ≤ q.f_cost := by
  intro l
  induction l with
  | nil => intro n rest h; simp [popMin] at h
  | cons a tail ih =>
    intro n rest h q hq
    rcases hp : popMin tail with _ | ⟨m, rest'⟩
    · have he : popMin (a :: tail) = some (a, []) := by rw [popMin, hp]
      rw [he] at h
      rw [popMin_eq_none_iff] at hp
      subst hp
      simp only [Option.some.injEq, Prod.mk.injEq] at h
      rcases List.mem_cons.mp hq with rfl | hq1
      · rw [← h.1]
      · simp at hq1
    · have he : popMin (a :: tail) =
          if a.f_cost ≤ m.f_cost then some (a, tail) else some (m, a :: rest') := by
        rw [popMin, hp]
      rw [he] at h
      by_cases hle : a.f_cost ≤ m.f_cost
      · rw [if_pos hle] at h
        simp only [Option.some.injEq, Prod.mk.injEq] at h
        rcases List.mem_cons.mp hq with rfl | hq1
        · rw [← h.1]
        · rw [← h.1]
          exact le_trans hle (ih hp q hq1)
      · rw [if_neg hle] at h
        simp only [Option.some.injEq, Prod.mk.injEq] at h
        rcases List.mem_cons.mp hq with rfl | hq1
        · rw [← h.1]; omega
        · rw [← h.1]
          exact ih hp q hq1

theorem popMin_mem {l : List Node} {n : Node} {rest : List Node}
    (h : popMin l = some (n, rest)) : n ∈ l :=
  (popMin_perm h).mem_iff.mpr (List.mem_cons_self _ _)

theorem popMin_length {l : List Node} {n : Node} {rest : List Node}
    (h : popMin l = some (n, rest)) : l.length = rest.length + 1 := by
  simpa using (popMin_perm h).length_eq

/-! ## Geometry lemmas: steps, directions, Manhattan distance -/

theorem is_valid_bounds {p : Point} {rows cols : Int} {grid : List (List Nat)}
    (h : is_valid p rows cols grid = true) :
    0 ≤ p.x ∧ p.x < rows ∧ 0 ≤ p.y ∧ p.y < cols := by
  simp only [is_valid, Bool.and_eq_true, decide_eq_true_eq] at h
  exact ⟨h.1.1.1.1, h.1.1.1.2, h.1.1.2, h.1.2⟩

theorem is_valid_free {p : Point} {rows cols : Int} {grid : List (List Nat)}
    (h : is_valid p rows cols grid = true) : gridCell grid p = some 0 := by
  simp only [is_valid, Bool.and_eq_true, beq_iff_eq] at h
  exact h.2

theorem isStep_iff_dir (a b : Point) :
    isStep a b = true ↔ ∃ d ∈ dirsList, b = ⟨a.x + d.1, a.y + d.2⟩ := by
  obtain ⟨ax, ay⟩ := a
  obtain ⟨bx, by'⟩ := b
  constructor
  · intro h
    simp only [isStep, beq_iff_eq] at h
    have h4 : (bx = ax - 1 ∧ by' = ay) ∨ (bx = ax + 1 ∧ by' = ay) ∨
        (bx = ax ∧ by' = ay - 1) ∨ (bx = ax ∧ by' = ay + 1) := by omega
    rcases h4 with ⟨h1, h2⟩ | ⟨h1, h2⟩ | ⟨h1, h2⟩ | ⟨h1, h2⟩
    · refine ⟨(-1, 0), by simp [dirsList], ?_⟩
      simp only [Point.mk.injEq]
      omega
    · refine ⟨(1, 0), by simp [dirsList], ?_⟩
      simp only [Point.mk.injEq]
      omega
    · refine ⟨(0, -1), by simp [dirsList], ?_⟩
      simp only [Point.mk.injEq]
      omega
    · refine ⟨(0, 1), by simp [dirsList], ?_⟩
      simp only [Point.mk.injEq]
      omega
  · rintro ⟨d, hd, heq⟩
    simp [dirsList] at hd
    rcases hd with rfl | rfl | rfl | rfl <;>
      (simp only [Point.mk.injEq] at heq
       simp only [isStep, beq_iff_eq]
       omega)

theorem dir_neighbor_ne {d : Int × Int} (hd : d ∈ dirsList) (c : Point) :
    Point.mk (c.x + d.1) (c.y + d.2) ≠ c := by
  simp [dirsList] at hd
  obtain ⟨cx, cy⟩ := c
  rcases hd with rfl | rfl | rfl | rfl <;>
    (intro hcon
     simp only [Point.mk.injEq] at hcon
     omega)

theorem calculate_heuristic_self (p : Point) : calculate_heuristic p p = 0 := by
  simp [calculate_heuristic]

theorem calculate_heuristic_step {a b : Point} (h : isStep a b = true) :
    calculate_heuristic a b = 1 := by
  simp only [isStep, beq_iff_eq] at h
  simp only [calculate_heuristic]
  omega

theorem calculate_heuristic_triangle (a b c : Point) :
    calculate_heuristic a c ≤ calculate_heuristic a b + calculate_heuristic b c := by
  simp only [calculate_heuristic]
  omega

/-- Along any 4-directional walk, the Manhattan distance between the first
cell and the last cell is at most the number of steps. -/
theorem manhattan_le_steps : ∀ (P : List Point) (a b : Point),
    pathSteps (a :: P) → (a :: P).getLast? = some b →
    calculate_heuristic a b ≤ P.length := by
  intro P
  induction P with
  | nil =>
    intro a b _ hlast
    simp only [List.getLast?_singleton, Option.some.injEq] at hlast
    subst hlast
    simp [calculate_heuristic_self]
  | cons a' P' ih =>
    intro a b hchain hlast
    have hchain' : pathSteps (a' :: P') := (List.chain'_cons.mp hchain).2
    have hstep : isStep a a' = true := (List.chain'_cons.mp hchain).1
    have hlast' : (a' :: P').getLast? = some b := by
      rwa [List.getLast?_cons_cons] at hlast
    calc calculate_heuristic a b
        ≤ calculate_heuristic a a' + calculate_heuristic a' b :=
          calculate_heuristic_triangle a a' b
      _ ≤ 1 + P'.length := by
          have := ih a' b hchain' hlast'
          rw [calculate_heuristic_step hstep]
          omega
      _ = (a' :: P').length := by simp [Nat.add_comm]

/-! ## Cardinality bound for the cost map -/

/-- All points of the `rows × cols` box, as a finite set. -/
def boxFinset (rows cols : Int) : Finset Point :=
  ((Finset.range rows.toNat) ×ˢ (Finset.range cols.toNat)).image
    (fun q => Point.mk (q.1 : Int) (q.2 : Int))

theorem mem_boxFinset {rows cols : Int} {c : Point}
    (h : 0 ≤ c.x ∧ c.x < rows ∧ 0 ≤ c.y ∧ c.y < cols) : c ∈ boxFinset rows cols := by
  refine Finset.mem_image.mpr ⟨(c.x.toNat, c.y.toNat), ?_, ?_⟩
  · rw [Finset.mem_product]
    constructor <;> (rw [Finset.mem_range]; omega)
  · show Point.mk (c.x.toNat : Int) (c.y.toNat : Int) = Point.mk c.x c.y
    simp only [Point.mk.injEq]
    constructor <;> omega

theorem card_boxFinset_le (rows cols : Int) :
    (boxFinset rows cols).card ≤ rows.toNat * cols.toNat := by
  calc (boxFinset rows cols).card
      ≤ ((Finset.range rows.toNat) ×ˢ (Finset.range cols.toNat)).card :=
        Finset.card_image_le
    _ = rows.toNat * cols.toNat := by rw [Finset.card_product, Finset.card_range,
        Finset.card_range]

/-- A duplicate-free map whose keys are either `start` or in-bounds cells has
at most `rows*cols + 1` entries. -/
theorem map_length_le {β : Type} (rows cols : Int) (start : Point)
    (m : List (Point × β)) (hnd : (m.map Prod.fst).Nodup)
    (h : ∀ q ∈ m, q.1 = start ∨ (0 ≤ q.1.x ∧ q.1.x < rows ∧ 0 ≤ q.1.y ∧ q.1.y < cols)) :
    m.length ≤ rows.toNat * cols.toNat + 1 := by
  classical
  have hsub : (m.map Prod.fst).toFinset ⊆ insert start (boxFinset rows cols) := by
    intro c hc
    rw [List.mem_toFinset] at hc
    rcases List.mem_map.mp hc with ⟨q, hq, rfl⟩
    rcases h q hq with h1 | h1
    · rw [h1]; exact Finset.mem_insert_self _ _
    · exact Finset.mem_insert_of_mem (mem_boxFinset h1)
  have hcard : (m.map Prod.fst).toFinset.card = m.length := by
    rw [List.toFinset_card_of_nodup hnd, List.length_map]
  calc m.length = (m.map Prod.fst).toFinset.card := hcard.symm
    _ ≤ (insert start (boxFinset rows cols)).card := Finset.card_le_card hsub
    _ ≤ (boxFinset rows cols).card + 1 := Finset.card_insert_le _ _
    _ ≤ rows.toNat * cols.toNat + 1 := by
        have := card_boxFinset_le rows cols
        omega

/-! ## The search invariant -/

/-- Direction `d` out of cell `c` has been relaxed at cost `v`: if that
neighbour is valid then it carries a recorded cost of at most `v + 1`. -/
def relaxedAt (rows cols : Int) (grid : List (List Nat)) (g_costs : List (Point × Nat))
    (c : Point) (v : Nat) (d : Int × Int) : Prop :=
  is_valid ⟨c.x + d.1, c.y + d.2⟩ rows cols grid = true →
    ∃ w, lookupPt g_costs ⟨c.x + d.1, c.y + d.2⟩ = some w ∧ w ≤ v + 1

/-- The master invariant of the search loop, relating the open list, the
`g_costs` map and the `parents` map. -/
structure SearchInv (start goal : Point) (rows cols : Int) (grid : List (List Nat))
    (s : AState) : Prop where
  nodupG : (s.g_costs.map Prod.fst).Nodup
  nodupP : (s.parents.map Prod.fst).Nodup
  startKey : lookupPt s.g_costs start = some 0
  keysOK : ∀ q ∈ s.g_costs, q.1 = start ∨ is_valid q.1 rows cols grid = true
  gBound : ∀ q ∈ s.g_costs, q.2 < s.g_costs.length
  openKeyed : ∀ n ∈ s.open_list, ∃ v, lookupPt s.g_costs n.p = some v ∧ v ≤ n.g_cost
  openBound : ∀ n ∈ s.open_list, n.g_cost < s.g_costs.length
  openF : ∀ n ∈ s.open_list, n.f_cost = n.g_cost + calculate_heuristic n.p goal
  parOK : ∀ q ∈ s.parents, is_valid q.1 rows cols grid = true ∧ isStep q.2 q.1 = true ∧
    ∃ vc vp, lookupPt s.g_costs q.1 = some vc ∧ lookupPt s.g_costs q.2 = some vp ∧ vp < vc
  keyPar : ∀ q ∈ s.g_costs, q.1 = start ∨ (lookupPt s.parents q.1).isSome
  live : ∀ q ∈ s.g_costs,
    (∃ n ∈ s.open_list, n.p = q.1 ∧ n.g_cost = q.2) ∨
    (∀ d ∈ dirsList, relaxedAt rows cols grid s.g_costs q.1 q.2 d)
  goalLive : ∀ v, lookupPt s.g_costs goal = some v → ∃ n ∈ s.open_list, n.p = goal

/-- One more than the number of in-bounds cells: an upper bound on the number
of keys of `g_costs` (in-bounds cells plus possibly the start). -/
def Dsize (rows cols : Int) : Nat := rows.toNat * cols.toNat + 1

/-- Potential of the cost map: drops by at least one on every insertion or
strict improvement. -/
def phi (rows cols : Int) (s : AState) : Nat :=
  Dsize rows cols * (Dsize rows cols - s.g_costs.length) + sumVals s.g_costs

/-- Termination measure of the loop: strictly decreases on every iteration. -/
def mu (rows cols : Int) (s : AState) : Nat :=
  5 * phi rows cols s + s.open_list.length

/-- The effect of one neighbour relaxation: either the state is unchanged
(and a valid neighbour already carries a cost of at most `g(cur) + 1`), or
the neighbour is valid, strictly improved (or new), and the three state
components are updated exactly as in source lines 82-88. -/
theorem relaxStep_spec (goal : Point) (rows cols : Int) (grid : List (List Nat))
    (cur : Node) (st : AState) (d : Int × Int) :
    (relaxStep goal rows cols grid cur st d = st ∧
      relaxedAt rows cols grid st.g_costs cur.p cur.g_cost d) ∨
    (is_valid ⟨cur.p.x + d.1, cur.p.y + d.2⟩ rows cols grid = true ∧
      (∀ w, lookupPt st.g_costs ⟨cur.p.x + d.1, cur.p.y + d.2⟩ = some w →
        cur.g_cost + 1 < w) ∧
      relaxStep goal rows cols grid cur st d =
        { open_list := st.open_list ++
            [⟨⟨cur.p.x + d.1, cur.p.y + d.2⟩, cur.g_cost + 1,
              calculate_heuristic ⟨cur.p.x + d.1, cur.p.y + d.2⟩ goal,
              cur.g_cost + 1 + calculate_heuristic ⟨cur.p.x + d.1, cur.p.y + d.2⟩ goal,
              cur.p⟩],
          g_costs := insertPt st.g_costs ⟨cur.p.x + d.1, cur.p.y + d.2⟩ (cur.g_cost + 1),
          parents := insertPt st.parents ⟨cur.p.x + d.1, cur.p.y + d.2⟩ cur.p }) := by
  by_cases hv : is_valid ⟨cur.p.x + d.1, cur.p.y + d.2⟩ rows cols grid = true
  · rcases hl : lookupPt st.g_costs ⟨cur.p.x + d.1, cur.p.y + d.2⟩ with _ | old
    · right
      refine ⟨hv, ?_, ?_⟩
      · intro w hw
        exact Option.noConfusion hw
      · simp [relaxStep, hl, hv]
    · by_cases himp : cur.g_cost + 1 < old
      · right
        refine ⟨hv, ?_, ?_⟩
        · intro w hw
          injection hw with hw
          omega
        · simp [relaxStep, hl, hv, himp]
      · left
        constructor
        · simp [relaxStep, hl, hv, himp]
        · intro _
          exact ⟨old, hl, by omega⟩
  · left
    constructor
    · simp [relaxStep, hv]
    · intro hcon
      exact absurd hcon hv

/-- The invariant that holds while the four neighbours of the popped node
`cur` are being relaxed: like `SearchInv`, but the `live` obligation is
suspended for `cur.p` (its open-list witness has just been popped), and the
facts recorded about `cur` when it was popped are carried along. -/
structure ExpandInv (start goal : Point) (rows cols : Int) (grid : List (List Nat))
    (cur : Node) (s : AState) : Prop where
  nodupG : (s.g_costs.map Prod.fst).Nodup
  nodupP : (s.parents.map Prod.fst).Nodup
  startKey : lookupPt s.g_costs start = some 0
  keysOK : ∀ q ∈ s.g_costs, q.1 = start ∨ is_valid q.1 rows cols grid = true
  gBound : ∀ q ∈ s.g_costs, q.2 < s.g_costs.length
  openKeyed : ∀ n ∈ s.open_list, ∃ v, lookupPt s.g_costs n.p = some v ∧ v ≤ n.g_cost
  openBound : ∀ n ∈ s.open_list, n.g_cost < s.g_costs.length
  openF : ∀ n ∈ s.open_list, n.f_cost = n.g_cost + calculate_heuristic n.p goal
  parOK : ∀ q ∈ s.parents, is_valid q.1 rows cols grid = true ∧ isStep q.2 q.1 = true ∧
    ∃ vc vp, lookupPt s.g_costs q.1 = some vc ∧ lookupPt s.g_costs q.2 = some vp ∧ vp < vc
  keyPar : ∀ q ∈ s.g_costs, q.1 = start ∨ (lookupPt s.parents q.1).isSome
  liveE : ∀ q ∈ s.g_costs, q.1 = cur.p ∨
    (∃ n ∈ s.open_list, n.p = q.1 ∧ n.g_cost = q.2) ∨
    (∀ d ∈ dirsList, relaxedAt rows cols grid s.g_costs q.1 q.2 d)
  goalLive : ∀ v, lookupPt s.g_costs goal = some v → ∃ n ∈ s.open_list, n.p = goal
  curKeyed : ∃ v, lookupPt s.g_costs cur.p = some v ∧ v ≤ cur.g_cost
  curBound : cur.g_cost < s.g_costs.length

theorem relaxedAt_mono {rows cols : Int} {grid : List (List Nat)}
    {g g' : List (Point × Nat)} {c0 : Point} {v0 : Nat} {d' : Int × Int}
    (hm : ∀ c v, lookupPt g c = some v → ∃ v', lookupPt g' c = some v' ∧ v' ≤ v)
    (h : relaxedAt rows cols grid g c0 v0 d') : relaxedAt rows cols grid g' c0 v0 d' := by
  intro hv
  obtain ⟨w, hw, hwle⟩ := h hv
  obtain ⟨w', hw', hw'le⟩ := hm _ w hw
  exact ⟨w', hw', le_trans hw'le hwle⟩

theorem ExpandInv.keyCount_le {start goal : Point} {rows cols : Int} {grid : List (List Nat)}
    {cur : Node} {s : AState} (h : ExpandInv start goal rows cols grid cur s) :
    s.g_costs.length ≤ Dsize rows cols := by
  refine map_length_le rows cols start s.g_costs h.nodupG ?_
  intro q hq
  rcases h.keysOK q hq with h1 | h1
  · exact Or.inl h1
  · exact Or.inr (is_valid_bounds h1)

/-- One neighbour relaxation preserves the mid-expansion invariant; in
addition the recorded costs only decrease, the open list only grows at the
end, the key count only grows, the measure does not increase, direction `d`
ends up relaxed for `cur`, and the cost recorded for `cur.p` is unchanged. -/
theorem relaxStep_preserves (start goal : Point) (rows cols : Int)
    (grid : List (List Nat)) (cur : Node) (st : AState) (d : Int × Int)
    (hd : d ∈ dirsList) (hInv : ExpandInv start goal rows cols grid cur st) :
    ExpandInv start goal rows cols grid cur (relaxStep goal rows cols grid cur st d) ∧
    (∀ c v, lookupPt st.g_costs c = some v →
      ∃ v', lookupPt (relaxStep goal rows cols grid cur st d).g_costs c = some v' ∧
        v' ≤ v) ∧
    (∃ extra, (relaxStep goal rows cols grid cur st d).open_list =
      st.open_list ++ extra) ∧
    st.g_costs.length ≤ (relaxStep goal rows cols grid cur st d).g_costs.length ∧
    5 * phi rows cols (relaxStep goal rows cols grid cur st d) +
        (relaxStep goal rows cols grid cur st d).open_list.length ≤
      5 * phi rows cols st + st.open_list.length ∧
    relaxedAt rows cols grid (relaxStep goal rows cols grid cur st d).g_costs cur.p
      cur.g_cost d ∧
    lookupPt (relaxStep goal rows cols grid cur st d).g_costs cur.p =
      lookupPt st.g_costs cur.p := by
  rcases relaxStep_spec goal rows cols grid cur st d with ⟨heq, hrel⟩ | ⟨hv, hnew, heq⟩
  · rw [heq]
    exact ⟨hInv, fun c v h => ⟨v, h, le_refl v⟩, ⟨[], by simp⟩, le_refl _, le_refl _,
      hrel, rfl⟩
  · obtain ⟨vcur, hvcur, hvcur_le⟩ := hInv.curKeyed
    have hne_cur : (⟨cur.p.x + d.1, cur.p.y + d.2⟩ : Point) ≠ cur.p :=
      dir_neighbor_ne hd cur.p
    have hne_start : (⟨cur.p.x + d.1, cur.p.y + d.2⟩ : Point) ≠ start := by
      intro hcon
      have h0 := hnew 0 (by rw [hcon]; exact hInv.startKey)
      omega
    have hlook : ∀ c, lookupPt (insertPt st.g_costs
        ⟨cur.p.x + d.1, cur.p.y + d.2⟩ (cur.g_cost + 1)) c =
        if c = ⟨cur.p.x + d.1, cur.p.y + d.2⟩ then some (cur.g_cost + 1)
        else lookupPt st.g_costs c :=
      fun c => lookupPt_insertPt st.g_costs _ _ c
    have hlookP : ∀ c, lookupPt (insertPt st.parents
        ⟨cur.p.x + d.1, cur.p.y + d.2⟩ cur.p) c =
        if c = ⟨cur.p.x + d.1, cur.p.y + d.2⟩ then some cur.p
        else lookupPt st.parents c :=
      fun c => lookupPt_insertPt st.parents _ _ c
    have hmono : ∀ c v, lookupPt st.g_costs c = some v →
        ∃ v', lookupPt (insertPt st.g_costs ⟨cur.p.x + d.1, cur.p.y + d.2⟩
          (cur.g_cost + 1)) c = some v' ∧ v' ≤ v := by
      intro c v h
      rw [hlook c]
      by_cases hc : c = (⟨cur.p.x + d.1, cur.p.y + d.2⟩ : Point)
      · rw [if_pos hc]
        rw [hc] at h
        exact ⟨cur.g_cost + 1, rfl, le_of_lt (hnew v h)⟩
      · rw [if_neg hc]
        exact ⟨v, h, le_refl v⟩
    have hlen : st.g_costs.length ≤
        (insertPt st.g_costs ⟨cur.p.x + d.1, cur.p.y + d.2⟩ (cur.g_cost + 1)).length :=
      length_le_length_insertPt _ _ _
    have hnewlen : cur.g_cost + 1 <
        (insertPt st.g_costs ⟨cur.p.x + d.1, cur.p.y + d.2⟩ (cur.g_cost + 1)).length := by
      rcases hl : lookupPt st.g_costs ⟨cur.p.x + d.1, cur.p.y + d.2⟩ with _ | w
      · rw [length_insertPt_of_none hl]
        have hc := hInv.curBound
        omega
      · rw [length_insertPt_of_some hl]
        have h1 := hnew w hl
        have h2 : w < st.g_costs.length := hInv.gBound (_, w) (mem_of_lookupPt hl)
        omega
    have hndG := nodupKeys_insertPt (m := st.g_costs)
      (c := ⟨cur.p.x + d.1, cur.p.y + d.2⟩) (v := cur.g_cost + 1) hInv.nodupG
    have hndP := nodupKeys_insertPt (m := st.parents)
      (c := ⟨cur.p.x + d.1, cur.p.y + d.2⟩) (v := cur.p) hInv.nodupP
    have hcurSame : lookupPt (insertPt st.g_costs ⟨cur.p.x + d.1, cur.p.y + d.2⟩
        (cur.g_cost + 1)) cur.p = lookupPt st.g_costs cur.p := by
      rw [hlook cur.p, if_neg (fun hcon => hne_cur hcon.symm)]
    have hE : ExpandInv start goal rows cols grid cur
        { open_list := st.open_list ++
            [⟨⟨cur.p.x + d.1, cur.p.y + d.2⟩, cur.g_cost + 1,
              calculate_heuristic ⟨cur.p.x + d.1, cur.p.y + d.2⟩ goal,
              cur.g_cost + 1 + calculate_heuristic ⟨cur.p.x + d.1, cur.p.y + d.2⟩ goal,
              cur.p⟩],
          g_costs := insertPt st.g_costs ⟨cur.p.x + d.1, cur.p.y + d.2⟩ (cur.g_cost + 1),
          parents := insertPt st.parents ⟨cur.p.x + d.1, cur.p.y + d.2⟩ cur.p } := by
      refine ⟨hndG, hndP, ?_, ?_, ?_, ?_, ?_, ?_, ?_, ?_, ?_, ?_, ?_, ?_⟩
      · -- startKey
        show lookupPt (insertPt st.g_costs _ _) start = some 0
        rw [hlook start, if_neg (fun hcon => hne_start hcon.symm)]
        exact hInv.startKey
      · -- keysOK
        intro q hq
        rcases (mem_insertPt_iff hInv.nodupG).mp hq with rfl | ⟨hq1, _⟩
        · exact Or.inr hv
        · exact hInv.keysOK q hq1
      · -- gBound
        intro q hq
        rcases (mem_insertPt_iff hInv.nodupG).mp hq with rfl | ⟨hq1, _⟩
        · exact hnewlen
        · exact lt_of_lt_of_le (hInv.gBound q hq1) hlen
      · -- openKeyed
        intro n hn
        rcases List.mem_append.mp hn with hn1 | hn1
        · obtain ⟨v, hv1, hv2⟩ := hInv.openKeyed n hn1
          show ∃ w, lookupPt (insertPt st.g_costs ⟨cur.p.x + d.1, cur.p.y + d.2⟩
            (cur.g_cost + 1)) n.p = some w ∧ w ≤ n.g_cost
          rw [hlook n.p]
          by_cases hc : n.p = (⟨cur.p.x + d.1, cur.p.y + d.2⟩ : Point)
          · rw [if_pos hc]
            rw [hc] at hv1
            have := hnew v hv1
            exact ⟨cur.g_cost + 1, rfl, by omega⟩
          · rw [if_neg hc]
            exact ⟨v, hv1, hv2⟩
        · rcases List.mem_singleton.mp hn1 with rfl
          refine ⟨cur.g_cost + 1, ?_, le_refl _⟩
          show lookupPt (insertPt st.g_costs _ _) _ = _
          rw [hlook _, if_pos rfl]
      · -- openBound
        intro n hn
        rcases List.mem_append.mp hn with hn1 | hn1
        · exact lt_of_lt_of_le (hInv.openBound n hn1) hlen
        · rcases List.mem_singleton.mp hn1 with rfl
          exact hnewlen
      · -- openF
        intro n hn
        rcases List.mem_append.mp hn with hn1 | hn1
        · exact hInv.openF n hn1
        · rcases List.mem_singleton.mp hn1 with rfl
          rfl
      · -- parOK
        intro q hq
        rcases (mem_insertPt_iff hInv.nodupP).mp hq with rfl | ⟨hq1, hq2⟩
        · refine ⟨hv, ?_, cur.g_cost + 1, vcur, ?_, ?_, by omega⟩
          · exact (isStep_iff_dir cur.p _).mpr ⟨d, hd, rfl⟩
          · show lookupPt (insertPt st.g_costs _ _) _ = _
            rw [hlook _, if_pos rfl]
          · show lookupPt (insertPt st.g_costs _ _) cur.p = some vcur
            rw [hcurSame]
            exact hvcur
        · obtain ⟨hval, hstep, vc, vp, hvc, hvp, hlt⟩ := hInv.parOK q hq1
          refine ⟨hval, hstep, ?_⟩
          by_cases hc : q.2 = (⟨cur.p.x + d.1, cur.p.y + d.2⟩ : Point)
          · refine ⟨vc, cur.g_cost + 1, ?_, ?_, ?_⟩
            · show lookupPt (insertPt st.g_costs _ _) _ = _
              rw [hlook _, if_neg hq2]
              exact hvc
            · show lookupPt (insertPt st.g_costs _ _) _ = _
              rw [hlook _, if_pos hc]
            · rw [hc] at hvp
              have := hnew vp hvp
              omega
          · refine ⟨vc, vp, ?_, ?_, hlt⟩
            · show lookupPt (insertPt st.g_costs _ _) _ = _
              rw [hlook _, if_neg hq2]
              exact hvc
            · show lookupPt (insertPt st.g_costs _ _) _ = _
              rw [hlook _, if_neg hc]
              exact hvp
      · -- keyPar
        intro q hq
        rcases (mem_insertPt_iff hInv.nodupG).mp hq with rfl | ⟨hq1, hq2⟩
        · refine Or.inr ?_
          show (lookupPt (insertPt st.parents _ _) _).isSome
          rw [hlookP _, if_pos rfl]
          rfl
        · rcases hInv.keyPar q hq1 with h1 | h1
          · exact Or.inl h1
          · refine Or.inr ?_
            show (lookupPt (insertPt st.parents _ _) _).isSome
            rw [hlookP _, if_neg hq2]
            exact h1
      · -- liveE
        intro q hq
        rcases (mem_insertPt_iff hInv.nodupG).mp hq with rfl | ⟨hq1, hq2⟩
        · refine Or.inr (Or.inl ⟨_, List.mem_append_right _ (List.mem_singleton.mpr rfl),
            rfl, rfl⟩)
        · rcases hInv.liveE q hq1 with h1 | h1 | h1
          · exact Or.inl h1
          · obtain ⟨n, hn, hnp, hng⟩ := h1
            exact Or.inr (Or.inl ⟨n, List.mem_append_left _ hn, hnp, hng⟩)
          · refine Or.inr (Or.inr ?_)
            intro d' hd'
            exact relaxedAt_mono hmono (h1 d' hd')
      · -- goalLive
        intro v hvg
        have hvg2 : (if goal = (⟨cur.p.x + d.1, cur.p.y + d.2⟩ : Point)
            then some (cur.g_cost + 1) else lookupPt st.g_costs goal) = some v :=
          (hlook goal).symm.trans hvg
        by_cases hc : goal = (⟨cur.p.x + d.1, cur.p.y + d.2⟩ : Point)
        · exact ⟨_, List.mem_append_right _ (List.mem_singleton.mpr rfl), hc.symm⟩
        · rw [if_neg hc] at hvg2
          obtain ⟨n, hn, hnp⟩ := hInv.goalLive v hvg2
          exact ⟨n, List.mem_append_left _ hn, hnp⟩
      · -- curKeyed
        refine ⟨vcur, ?_, hvcur_le⟩
        show lookupPt (insertPt st.g_costs _ _) cur.p = some vcur
        rw [hcurSame]
        exact hvcur
      · -- curBound
        exact lt_of_lt_of_le hInv.curBound hlen
    rw [heq]
    refine ⟨hE, hmono, ⟨_, rfl⟩, hlen, ?_, ?_, hcurSame⟩
    · -- the measure does not increase
      have hD : (insertPt st.g_costs ⟨cur.p.x + d.1, cur.p.y + d.2⟩
          (cur.g_cost + 1)).length ≤ Dsize rows cols := hE.keyCount_le
      simp only [phi, List.length_append, List.length_singleton]
      rcases hl : lookupPt st.g_costs ⟨cur.p.x + d.1, cur.p.y + d.2⟩ with _ | w
      · have hL := length_insertPt_of_none (v := cur.g_cost + 1) hl
        have hS := sumVals_insertPt_of_none (v := cur.g_cost + 1) hl
        rw [hL, hS]
        rw [hL] at hD
        have hexp : Dsize rows cols * (Dsize rows cols - st.g_costs.length) =
            Dsize rows cols * (Dsize rows cols - (st.g_costs.length + 1)) +
            Dsize rows cols := by
          rw [← Nat.mul_succ]
          congr 1
          omega
        rw [hexp]
        have hcb : cur.g_cost + 1 < Dsize rows cols := by
          have := hInv.curBound
          omega
        omega
      · have hL := length_insertPt_of_some (v := cur.g_cost + 1) hl
        have hS := sumVals_insertPt_of_some (v := cur.g_cost + 1) hl
        have hw : cur.g_cost + 1 < w := hnew w hl
        rw [hL]
        omega
    · -- relaxedAt for d
      intro _
      refine ⟨cur.g_cost + 1, ?_, le_refl _⟩
      show lookupPt (insertPt st.g_costs _ _) _ = _
      rw [hlook _, if_pos rfl]

/-- Folding `relaxStep` over a sublist of the four directions preserves the
mid-expansion invariant and accumulates the per-step guarantees. -/
theorem expandFold_preserves (start goal : Point) (rows cols : Int)
    (grid : List (List Nat)) (cur : Node) :
    ∀ (L : List (Int × Int)), (∀ d ∈ L, d ∈ dirsList) → ∀ st : AState,
    ExpandInv start goal rows cols grid cur st →
    ExpandInv start goal rows cols grid cur
      (L.foldl (relaxStep goal rows cols grid cur) st) ∧
    (∀ c v, lookupPt st.g_costs c = some v →
      ∃ v', lookupPt (L.foldl (relaxStep goal rows cols grid cur) st).g_costs c =
        some v' ∧ v' ≤ v) ∧
    (∃ extra, (L.foldl (relaxStep goal rows cols grid cur) st).open_list =
      st.open_list ++ extra) ∧
    st.g_costs.length ≤
      (L.foldl (relaxStep goal rows cols grid cur) st).g_costs.length ∧
    5 * phi rows cols (L.foldl (relaxStep goal rows cols grid cur) st) +
        (L.foldl (relaxStep goal rows cols grid cur) st).open_list.length ≤
      5 * phi rows cols st + st.open_list.length ∧
    (∀ d ∈ L, relaxedAt rows cols grid
      (L.foldl (relaxStep goal rows cols grid cur) st).g_costs cur.p cur.g_cost d) ∧
    lookupPt (L.foldl (relaxStep goal rows cols grid cur) st).g_costs cur.p =
      lookupPt st.g_costs cur.p := by
  intro L
  induction L with
  | nil =>
    intro _ st hInv
    exact ⟨hInv, fun c v h => ⟨v, h, le_refl v⟩, ⟨[], by simp⟩, le_refl _, le_refl _,
      by simp, rfl⟩
  | cons d L' ih =>
    intro hL st hInv
    have hd : d ∈ dirsList := hL d (List.mem_cons_self _ _)
    obtain ⟨hE1, hmono1, ⟨ex1, hext1⟩, hlen1, hmu1, hrel1, hcur1⟩ :=
      relaxStep_preserves start goal rows cols grid cur st d hd hInv
    obtain ⟨hE2, hmono2, ⟨ex2, hext2⟩, hlen2, hmu2, hrel2, hcur2⟩ :=
      ih (fun d' hd' => hL d' (List.mem_cons_of_mem _ hd'))
        (relaxStep goal rows cols grid cur st d) hE1
    rw [List.foldl_cons]
    refine ⟨hE2, ?_, ?_, ?_, ?_, ?_, ?_⟩
    · intro c v h
      obtain ⟨v1, h1, h1le⟩ := hmono1 c v h
      obtain ⟨v2, h2, h2le⟩ := hmono2 c v1 h1
      exact ⟨v2, h2, le_trans h2le h1le⟩
    · exact ⟨ex1 ++ ex2, by rw [hext2, hext1, List.append_assoc]⟩
    · exact le_trans hlen1 hlen2
    · exact le_trans hmu2 hmu1
    · intro d' hd'
      rcases List.mem_cons.mp hd' with rfl | hd2
      · exact relaxedAt_mono hmono2 hrel1
      · exact hrel2 d' hd2
    · rw [hcur2, hcur1]

/-- Popping a non-goal node from a state satisfying the search invariant
yields a state satisfying the mid-expansion invariant. -/
theorem pop_to_expand (start goal : Point) (rows cols : Int) (grid : List (List Nat))
    (s : AState) (cur : Node) (rest : List Node)
    (hInv : SearchInv start goal rows cols grid s)
    (hpop : popMin s.open_list = some (cur, rest)) (hng : cur.p ≠ goal) :
    ExpandInv start goal rows cols grid cur { s with open_list := rest } := by
  have hperm := popMin_perm hpop
  have hmemrest : ∀ n, n ∈ rest → n ∈ s.open_list := fun n hn =>
    hperm.mem_iff.mpr (List.mem_cons_of_mem _ hn)
  have hcur_mem := popMin_mem hpop
  refine ⟨hInv.nodupG, hInv.nodupP, hInv.startKey, hInv.keysOK, hInv.gBound, ?_, ?_, ?_,
    hInv.parOK, hInv.keyPar, ?_, ?_, ?_, ?_⟩
  · intro n hn
    exact hInv.openKeyed n (hmemrest n hn)
  · intro n hn
    exact hInv.openBound n (hmemrest n hn)
  · intro n hn
    exact hInv.openF n (hmemrest n hn)
  · intro q hq
    by_cases hqc : q.1 = cur.p
    · exact Or.inl hqc
    · rcases hInv.live q hq with ⟨n, hn, hnp, hng'⟩ | h1
      · refine Or.inr (Or.inl ⟨n, ?_, hnp, hng'⟩)
        have hmem2 : n ∈ cur :: rest := hperm.mem_iff.mp hn
        rcases List.mem_cons.mp hmem2 with rfl | h2
        · exact absurd hnp.symm hqc
        · exact h2
      · exact Or.inr (Or.inr h1)
  · intro v hv
    obtain ⟨n, hn, hnp⟩ := hInv.goalLive v hv
    have hmem2 : n ∈ cur :: rest := hperm.mem_iff.mp hn
    rcases List.mem_cons.mp hmem2 with rfl | h2
    · exact absurd hnp hng
    · exact ⟨n, h2, hnp⟩
  · exact hInv.openKeyed cur hcur_mem
  · exact hInv.openBound cur hcur_mem

/-- A full non-goal iteration of the loop (pop plus relaxation of the four
neighbours) preserves the search invariant and strictly decreases the
measure. -/
theorem expand_restores (start goal : Point) (rows cols : Int) (grid : List (List Nat))
    (s : AState) (cur : Node) (rest : List Node)
    (hInv : SearchInv start goal rows cols grid s)
    (hpop : popMin s.open_list = some (cur, rest)) (hng : cur.p ≠ goal) :
    SearchInv start goal rows cols grid
      (dirsList.foldl (relaxStep goal rows cols grid cur) { s with open_list := rest }) ∧
    mu rows cols (dirsList.foldl (relaxStep goal rows cols grid cur)
      { s with open_list := rest }) < mu rows cols s := by
  have hE0 := pop_to_expand start goal rows cols grid s cur rest hInv hpop hng
  obtain ⟨hEF, hmonoF, ⟨ex, hextF⟩, hlenF, hmuF, hrelF, hcurF⟩ :=
    expandFold_preserves start goal rows cols grid cur dirsList (fun d hd => hd)
      { s with open_list := rest } hE0
  obtain ⟨vcur, hvcur, hvcur_le⟩ := hE0.curKeyed
  constructor
  · refine ⟨hEF.nodupG, hEF.nodupP, hEF.startKey, hEF.keysOK, hEF.gBound, hEF.openKeyed,
      hEF.openBound, hEF.openF, hEF.parOK, hEF.keyPar, ?_, hEF.goalLive⟩
    intro q hq
    rcases hEF.liveE q hq with hqc | h1 | h1
    · have hlF : lookupPt (dirsList.foldl (relaxStep goal rows cols grid cur)
          { s with open_list := rest }).g_costs q.1 = some q.2 :=
        lookupPt_eq_some_of_mem hEF.nodupG hq
      rw [hqc] at hlF
      rw [hcurF] at hlF
      have hq2 : q.2 = vcur := by
        rw [hvcur] at hlF
        injection hlF with h
        exact h.symm
      by_cases hcg : vcur = cur.g_cost
      · right
        intro d hd
        rw [hqc, hq2, hcg]
        exact hrelF d hd
      · have hvl : vcur < cur.g_cost := lt_of_le_of_ne hvcur_le hcg
        rcases hInv.live (cur.p, vcur) (mem_of_lookupPt hvcur) with
          ⟨n, hn, hnp, hng'⟩ | h2
        · left
          have hnp2 : n.p = cur.p := hnp
          have hng2 : n.g_cost = vcur := hng'
          have hne : n ≠ cur := fun hcon => hcg (by rw [← hng2, hcon])
          have hmem2 : n ∈ cur :: rest := (popMin_perm hpop).mem_iff.mp hn
          have hnrest : n ∈ rest := by
            rcases List.mem_cons.mp hmem2 with rfl | h3
            · exact absurd rfl hne
            · exact h3
          refine ⟨n, ?_, by rw [hnp2, hqc], by rw [hng2, hq2]⟩
          rw [hextF]
          exact List.mem_append_left _ hnrest
        · right
          intro d hd
          rw [hqc, hq2]
          have h3 : ∀ d' ∈ dirsList,
              relaxedAt rows cols grid s.g_costs cur.p vcur d' := h2
          exact relaxedAt_mono hmonoF (h3 d hd)
    · exact Or.inl h1
    · exact Or.inr h1
  · have hlen_pop : s.open_list.length = rest.length + 1 := popMin_length hpop
    have hphi0 : phi rows cols { s with open_list := rest } = phi rows cols s := rfl
    have hol0 : ({ s with open_list := rest } : AState).open_list.length =
      rest.length := rfl
    rw [hphi0, hol0] at hmuF
    simp only [mu]
    omega

/-- Any duplicate-free list of points needs at most one entry equal to
`start`; dropping it loses at most one element. -/
theorem nodup_filter_ne_length (start : Point) :
    ∀ l : List Point, l.Nodup →
      l.length ≤ (l.filter (fun c => decide (c ≠ start))).length + 1 := by
  intro l
  induction l with
  | nil => simp
  | cons a tail ih =>
    intro hnd
    rw [List.nodup_cons] at hnd
    by_cases ha : a = start
    · subst ha
      have hkeep : tail.filter (fun c => decide (c ≠ a)) = tail := by
        apply List.filter_eq_self.mpr
        intro c hc
        simp only [decide_eq_true_eq]
        rintro rfl
        exact hnd.1 hc
      rw [List.filter_cons]
      rw [if_neg (by simp)]
      rw [hkeep]
      simp
    · have ih2 := ih hnd.2
      rw [List.filter_cons]
      rw [if_pos (by simp [ha])]
      simp only [List.length_cons]
      omega

/-- Every key of `g_costs` other than `start` has a `parents` entry, so the
cost map has at most one more entry than the parent map. -/
theorem gLen_le_parLen {start goal : Point} {rows cols : Int} {grid : List (List Nat)}
    {s : AState} (hInv : SearchInv start goal rows cols grid s) :
    s.g_costs.length ≤ s.parents.length + 1 := by
  have h1 : ((s.g_costs.map Prod.fst).filter (fun c => decide (c ≠ start))) ⊆
      s.parents.map Prod.fst := by
    intro c hc
    have hc1 := List.mem_of_mem_filter hc
    have hc2 : c ≠ start := by
      have := List.of_mem_filter hc
      simpa using this
    rcases List.mem_map.mp hc1 with ⟨q, hq, rfl⟩
    rcases hInv.keyPar q hq with h2 | h2
    · exact absurd h2 hc2
    · rcases Option.isSome_iff_exists.mp h2 with ⟨p, hp⟩
      exact List.mem_map.mpr ⟨(q.1, p), mem_of_lookupPt hp, rfl⟩
  have h2 : ((s.g_costs.map Prod.fst).filter (fun c => decide (c ≠ start))).length ≤
      (s.parents.map Prod.fst).length :=
    ((hInv.nodupG.filter _).subperm h1).length_le
  have h3 := nodup_filter_ne_length start (s.g_costs.map Prod.fst) hInv.nodupG
  rw [List.length_map] at h3
  rw [List.length_map] at h2
  omega

/-- Correctness of path reconstruction: from any recorded cell `c` with cost
`v`, following `parents` yields a walk from `start` to `c` of at most `v + 1`
cells, all cells after the first passing the validity check. -/
theorem reconstruct_ok {start goal : Point} {rows cols : Int} {grid : List (List Nat)}
    {s : AState} (hInv : SearchInv start goal rows cols grid s) :
    ∀ v : Nat, ∀ c : Point, lookupPt s.g_costs c = some v → ∀ fuelR : Nat, v < fuelR →
    ∃ path : List Point, reconstruct s.parents start fuelR c = some path ∧
      path.head? = some start ∧ path.getLast? = some c ∧ pathSteps path ∧
      (∀ q ∈ path.tail, is_valid q rows cols grid = true) ∧ path.length ≤ v + 1 := by
  intro v
  induction v using Nat.strong_induction_on with
  | _ v ih =>
    intro c hc fuelR hf
    obtain ⟨fr, rfl⟩ : ∃ fr, fuelR = fr + 1 := ⟨fuelR - 1, by omega⟩
    by_cases hcs : c = start
    · subst hcs
      refine ⟨[c], ?_, rfl, rfl, ?_, by simp, by simp⟩
      · simp [reconstruct]
      · exact List.chain'_singleton c
    · rcases hInv.keyPar (c, v) (mem_of_lookupPt hc) with h1 | h1
      · exact absurd h1 hcs
      · rcases Option.isSome_iff_exists.mp h1 with ⟨par, hpar⟩
        obtain ⟨hvalc, hstep, vc, vp, hvc, hvp, hlt⟩ :=
          hInv.parOK (c, par) (mem_of_lookupPt hpar)
        have hvceq : vc = v := by
          have : lookupPt s.g_costs c = some vc := hvc
          rw [hc] at this
          injection this with h
          exact h.symm
        subst hvceq
        have hvp2 : lookupPt s.g_costs par = some vp := hvp
        obtain ⟨pre, hpre, hhead, hlastp, hchain, htail, hlen⟩ :=
          ih vp hlt par hvp2 fr (by omega)
        cases pre with
        | nil => simp at hhead
        | cons p0 pre' =>
          refine ⟨(p0 :: pre') ++ [c], ?_, ?_, ?_, ?_, ?_, ?_⟩
          · simp only [reconstruct, if_neg hcs, hpar, hpre]
          · simpa using hhead
          · rw [List.getLast?_concat]
          · show List.Chain' (fun a b => isStep a b = true) ((p0 :: pre') ++ [c])
            rw [List.chain'_append]
            refine ⟨hchain, List.chain'_singleton c, ?_⟩
            intro x hx y hy
            rw [hlastp] at hx
            simp only [Option.mem_def, Option.some.injEq] at hx
            simp only [List.head?_cons, Option.mem_def, Option.some.injEq] at hy
            subst hx
            subst hy
            exact hstep
          · intro q hq
            have hq2 : q ∈ pre' ∨ q = c := by simpa using hq
            rcases hq2 with hq1 | rfl
            · exact htail q hq1
            · exact hvalc
          · have : (p0 :: pre').length ≤ vp + 1 := hlen
            simp only [List.length_append, List.length_singleton]
            omega

/-- The frontier-climbing lemma: walking from a recorded cell `a` towards
`goal` along a valid 4-directional walk, either the goal is already recorded
with a cost at most `va` plus the number of remaining steps, or the open
list holds a node whose `f` cost is at most that bound.  This is the heart
of both the completeness and the optimality arguments. -/
theorem climb {start goal : Point} {rows cols : Int} {grid : List (List Nat)}
    {s : AState} (hInv : SearchInv start goal rows cols grid s) :
    ∀ (P : List Point) (a : Point) (va : Nat),
    pathSteps (a :: P) → (a :: P).getLast? = some goal →
    (∀ c ∈ P, is_valid c rows cols grid = true) →
    lookupPt s.g_costs a = some va →
    (∃ vg, lookupPt s.g_costs goal = some vg ∧ vg ≤ va + P.length) ∨
    (∃ m ∈ s.open_list, m.f_cost ≤ va + P.length) := by
  intro P
  induction P with
  | nil =>
    intro a va _ hlast _ ha
    simp only [List.getLast?_singleton, Option.some.injEq] at hlast
    subst hlast
    exact Or.inl ⟨va, ha, by omega⟩
  | cons b P' ih =>
    intro a va hchain hlast hvalid ha
    rcases hInv.live (a, va) (mem_of_lookupPt ha) with ⟨n, hn, hnp, hng⟩ | hrel
    · right
      have hnp2 : n.p = a := hnp
      have hng2 : n.g_cost = va := hng
      refine ⟨n, hn, ?_⟩
      rw [hInv.openF n hn, hnp2, hng2]
      have hman := manhattan_le_steps (b :: P') a goal hchain hlast
      simp only [List.length_cons] at hman ⊢
      omega
    · have hstep : isStep a b = true := (List.chain'_cons.mp hchain).1
      obtain ⟨d, hd, hbeq⟩ := (isStep_iff_dir a b).mp hstep
      have hbvalid : is_valid b rows cols grid = true :=
        hvalid b (List.mem_cons_self _ _)
      have hrel2 : ∀ d ∈ dirsList, relaxedAt rows cols grid s.g_costs a va d := hrel
      obtain ⟨w, hw, hwle⟩ := hrel2 d hd (by rw [← hbeq]; exact hbvalid)
      rw [← hbeq] at hw
      have hchain' : pathSteps (b :: P') := (List.chain'_cons.mp hchain).2
      have hlast' : (b :: P').getLast? = some goal := by
        rwa [List.getLast?_cons_cons] at hlast
      have hvalid' : ∀ c ∈ P', is_valid c rows cols grid = true :=
        fun c hc => hvalid c (List.mem_cons_of_mem _ hc)
      rcases ih b w hchain' hlast' hvalid' hw with ⟨vg, hvg, hvgle⟩ | ⟨m, hm, hmle⟩
      · left
        refine ⟨vg, hvg, ?_⟩
        simp only [List.length_cons]
        omega
      · right
        refine ⟨m, hm, ?_⟩
        simp only [List.length_cons]
        omega

/-- Master lemma about the search loop: from any state satisfying the search
invariant, with enough fuel, the loop completes; an empty result certifies
that no valid walk from `start` to `goal` exists, and a non-empty result is
a walk from `start` to `goal` (through checked cells after the first) whose
cell count is minimal among all such walks. -/
theorem loop_main (start goal : Point) (rows cols : Int) (grid : List (List Nat)) :
    ∀ (fuel : Nat) (s : AState), SearchInv start goal rows cols grid s →
    mu rows cols s < fuel →
    ∃ res, aStarLoop start goal rows cols grid fuel s = some res ∧
      (res = [] → ∀ P, ¬ SemiPath rows cols grid start goal P) ∧
      (res ≠ [] → res.head? = some start ∧ res.getLast? = some goal ∧ pathSteps res ∧
        (∀ q ∈ res.tail, is_valid q rows cols grid = true) ∧
        ∀ P, SemiPath rows cols grid start goal P → res.length ≤ P.length) := by
  intro fuel
  induction fuel using Nat.strong_induction_on with
  | _ fuel ih =>
    intro s hInv hmu
    obtain ⟨f, rfl⟩ : ∃ f, fuel = f + 1 := ⟨fuel - 1, by omega⟩
    rcases hop : popMin s.open_list with _ | ⟨cur, rest⟩
    · refine ⟨[], ?_, ?_, fun h => absurd rfl h⟩
      · simp only [aStarLoop, hop]
      · intro _ P hP
        obtain ⟨hhead, hlast, hchain, htail⟩ := hP
        cases P with
        | nil => simp at hhead
        | cons p0 P' =>
          have hp0 : p0 = start := by simpa using hhead
          rw [hp0] at hchain hlast
          have hopen_nil : s.open_list = [] := (popMin_eq_none_iff _).mp hop
          rcases climb hInv P' start 0 hchain hlast (fun c hc => htail c hc)
            hInv.startKey with ⟨vg, hvg, _⟩ | ⟨m, hm, _⟩
          · obtain ⟨n, hn, _⟩ := hInv.goalLive vg hvg
            rw [hopen_nil] at hn
            exact absurd hn (List.not_mem_nil n)
          · rw [hopen_nil] at hm
            exact absurd hm (List.not_mem_nil m)
    · by_cases hg : cur.p = goal
      · obtain ⟨vg, hvg, hvgle⟩ := hInv.openKeyed cur (popMin_mem hop)
        rw [hg] at hvg
        have hvg_lt : vg < s.g_costs.length :=
          hInv.gBound (goal, vg) (mem_of_lookupPt hvg)
        have hgp : s.g_costs.length ≤ s.parents.length + 1 := gLen_le_parLen hInv
        obtain ⟨path, hrec, hhead, hlast, hchain, htail, hlen⟩ :=
          reconstruct_ok hInv vg goal hvg (s.parents.length + 1) (by omega)
        have hne : path ≠ [] := by
          intro hcon
          rw [hcon] at hhead
          simp at hhead
        refine ⟨path, ?_, fun h => absurd h hne,
          fun _ => ⟨hhead, hlast, hchain, htail, ?_⟩⟩
        · simp only [aStarLoop, hop]
          rw [if_pos hg]
          exact hrec
        · intro P hP
          obtain ⟨hPhead, hPlast, hPchain, hPtail⟩ := hP
          cases P with
          | nil => simp at hPhead
          | cons p0 P' =>
            have hp0 : p0 = start := by simpa using hPhead
            rw [hp0] at hPchain hPlast
            have hopt : vg ≤ P'.length := by
              rcases climb hInv P' start 0 hPchain hPlast (fun c hc => hPtail c hc)
                hInv.startKey with ⟨vg', hvg', hvgle'⟩ | ⟨m, hm, hmle⟩
              · rw [hvg] at hvg'
                injection hvg' with h
                omega
              · have hmin := popMin_min hop m hm
                have hcf : cur.f_cost = cur.g_cost + calculate_heuristic cur.p goal :=
                  hInv.openF cur (popMin_mem hop)
                rw [hg, calculate_heuristic_self] at hcf
                omega
            have hlen2 : path.length ≤ vg + 1 := hlen
            simp only [List.length_cons]
            omega
      · obtain ⟨hInv', hmu'⟩ := expand_restores start goal rows cols grid s cur rest
          hInv hop hg
        obtain ⟨res, hres, hres1, hres2⟩ := ih f (by omega) _ hInv' (by omega)
        refine ⟨res, ?_, hres1, hres2⟩
        simp only [aStarLoop, hop]
        rw [if_neg hg]
        exact hres

/-- The initial state of `a_star_search` (source lines 52-54) satisfies the
search invariant. -/
theorem init_inv (start goal : Point) (rows cols : Int) (grid : List (List Nat)) :
    SearchInv start goal rows cols grid
      ⟨[⟨start, 0, calculate_heuristic start goal, calculate_heuristic start goal,
        ⟨-1, -1⟩⟩], [(start, 0)], []⟩ := by
  refine ⟨?_, ?_, ?_, ?_, ?_, ?_, ?_, ?_, ?_, ?_, ?_, ?_⟩
  · simp
  · simp
  · simp [lookupPt]
  · intro q hq
    rcases List.mem_singleton.mp hq with rfl
    exact Or.inl rfl
  · intro q hq
    rcases List.mem_singleton.mp hq with rfl
    simp
  · intro n hn
    rcases List.mem_singleton.mp hn with rfl
    exact ⟨0, by simp [lookupPt], le_refl 0⟩
  · intro n hn
    rcases List.mem_singleton.mp hn with rfl
    simp
  · intro n hn
    rcases List.mem_singleton.mp hn with rfl
    simp
  · intro q hq
    simp at hq
  · intro q hq
    rcases List.mem_singleton.mp hq with rfl
    exact Or.inl rfl
  · intro q hq
    rcases List.mem_singleton.mp hq with rfl
    exact Or.inl ⟨_, List.mem_singleton.mpr rfl, rfl, rfl⟩
  · intro v hv
    by_cases hgs : goal = start
    · exact ⟨_, List.mem_singleton.mpr rfl, hgs.symm⟩
    · rw [show lookupPt [(start, (0 : Nat))] goal = none from by simp [lookupPt, hgs]]
        at hv
      cases hv

/-- The fuel provided by `a_star_search` strictly exceeds the initial
measure. -/
theorem mu_init_lt (start : Point) (rows cols : Int) (h : Nat) (par : Point) :
    mu rows cols ⟨[⟨start, 0, h, h, par⟩], [(start, 0)], []⟩ <
      searchFuel rows cols := by
  have h1 : Dsize rows cols * (Dsize rows cols - 1) ≤
      Dsize rows cols * Dsize rows cols :=
    Nat.mul_le_mul_left _ (by omega)
  simp only [mu, phi, searchFuel, sumVals, List.length_singleton, List.map_cons,
    List.map_nil, List.sum_cons, List.sum_nil]
  simp only [Dsize] at h1 ⊢
  omega

/-- Packaged form of the master lemma at the initial state of
`a_star_search`. -/
theorem astar_main (start goal : Point) (rows cols : Int) (grid : List (List Nat)) :
    ∃ res, a_star_search start goal rows cols grid = some res ∧
      (res = [] → ∀ P, ¬ SemiPath rows cols grid start goal P) ∧
      (res ≠ [] → res.head? = some start ∧ res.getLast? = some goal ∧ pathSteps res ∧
        (∀ q ∈ res.tail, is_valid q rows cols grid = true) ∧
        ∀ P, SemiPath rows cols grid start goal P → res.length ≤ P.length) :=
  loop_main start goal rows cols grid (searchFuel rows cols)
    ⟨[⟨start, 0, calculate_heuristic start goal, calculate_heuristic start goal,
      ⟨-1, -1⟩⟩], [(start, 0)], []⟩
    (init_inv start goal rows cols grid)
    (mu_init_lt start rows cols (calculate_heuristic start goal) ⟨-1, -1⟩)

/-! ## A canonical shortest walk (for the obstacle-free grid property) -/

/-- One coordinate step from `a` toward `b`. -/
def stepToward (a b : Int) : Int := if a < b then a + 1 else if b < a then a - 1 else a

/-- The next cell of the canonical monotone walk from `p` toward `q`: first
align the `x` coordinate, then the `y` coordinate. -/
def nextToward (p q : Point) : Point :=
  if p.x ≠ q.x then ⟨stepToward p.x q.x, p.y⟩ else ⟨p.x, stepToward p.y q.y⟩

/-- The canonical monotone walk of `n` steps from `p` toward `q`. -/
def staircase (q : Point) : Nat → Point → List Point
  | 0, p => [p]
  | n + 1, p => p :: staircase q n (nextToward p q)

theorem nextToward_facts (p q : Point) (h : p ≠ q) :
    isStep p (nextToward p q) = true ∧
    calculate_heuristic (nextToward p q) q + 1 = calculate_heuristic p q ∧
    min p.x q.x ≤ (nextToward p q).x ∧ (nextToward p q).x ≤ max p.x q.x ∧
    min p.y q.y ≤ (nextToward p q).y ∧ (nextToward p q).y ≤ max p.y q.y ∧
    min p.x q.x ≤ min (nextToward p q).x q.x ∧
    max (nextToward p q).x q.x ≤ max p.x q.x ∧
    min p.y q.y ≤ min (nextToward p q).y q.y ∧
    max (nextToward p q).y q.y ≤ max p.y q.y := by
  obtain ⟨px, py⟩ := p
  obtain ⟨qx, qy⟩ := q
  have hne : px ≠ qx ∨ py ≠ qy := by
    by_contra hcon
    push_neg at hcon
    exact h (by rw [hcon.1, hcon.2])
  rcases hne with hne | hne <;>
    (simp only [nextToward, stepToward, isStep, calculate_heuristic, beq_iff_eq]
     split_ifs <;>
       (refine ⟨?_, ?_, ?_, ?_, ?_, ?_, ?_, ?_, ?_, ?_⟩ <;> (simp only []; omega)))

theorem staircase_spec (q : Point) : ∀ (n : Nat) (p : Point),
    calculate_heuristic p q = n →
    (staircase q n p).head? = some p ∧ (staircase q n p).getLast? = some q ∧
    pathSteps (staircase q n p) ∧ (staircase q n p).length = n + 1 ∧
    ∀ c ∈ staircase q n p,
      min p.x q.x ≤ c.x ∧ c.x ≤ max p.x q.x ∧ min p.y q.y ≤ c.y ∧ c.y ≤ max p.y q.y := by
  intro n
  induction n with
  | zero =>
    intro p h
    have hpq : p = q := by
      obtain ⟨px, py⟩ := p
      obtain ⟨qx, qy⟩ := q
      simp only [calculate_heuristic] at h
      simp only [Point.mk.injEq]
      constructor <;> omega
    refine ⟨rfl, ?_, ?_, rfl, ?_⟩
    · show some p = some q
      rw [hpq]
    · exact List.chain'_singleton p
    · intro c hc
      rcases List.mem_singleton.mp hc with rfl
      rw [← hpq]
      refine ⟨?_, ?_, ?_, ?_⟩ <;> omega
  | succ n ihn =>
    intro p h
    have hne : p ≠ q := by
      intro hcon
      rw [hcon, calculate_heuristic_self] at h
      omega
    obtain ⟨hstep, hheur, hx1, hx2, hy1, hy2, hmx1, hmx2, hmy1, hmy2⟩ :=
      nextToward_facts p q hne
    have hn' : calculate_heuristic (nextToward p q) q = n := by omega
    obtain ⟨ihhead, ihlast, ihchain, ihlen, ihbox⟩ := ihn (nextToward p q) hn'
    refine ⟨rfl, ?_, ?_, ?_, ?_⟩
    · show (p :: staircase q n (nextToward p q)).getLast? = some q
      cases hsc : staircase q n (nextToward p q) with
      | nil =>
        rw [hsc] at ihhead
        simp at ihhead
      | cons s0 sl =>
        rw [hsc] at ihlast
        rw [List.getLast?_cons_cons]
        exact ihlast
    · show List.Chain' (fun a b => isStep a b = true) (p :: staircase q n (nextToward p q))
      rw [List.chain'_cons']
      refine ⟨?_, ihchain⟩
      intro y hy
      rw [ihhead] at hy
      simp only [Option.mem_def, Option.some.injEq] at hy
      subst hy
      exact hstep
    · show (p :: staircase q n (nextToward p q)).length = n + 1 + 1
      rw [List.length_cons, ihlen]
    · intro c hc
      rcases List.mem_cons.mp
        (show c ∈ p :: staircase q n (nextToward p q) from hc) with rfl | hc1
      · refine ⟨?_, ?_, ?_, ?_⟩ <;> omega
      · obtain ⟨b1, b2, b3, b4⟩ := ihbox c hc1
        refine ⟨?_, ?_, ?_, ?_⟩ <;> omega

/-- Any 4-directional walk from `a` to `b` has at least
`manhattan(a, b) + 1` cells. -/
theorem length_ge_manhattan {P : List Point} {a b : Point} (hhead : P.head? = some a)
    (hlast : P.getLast? = some b) (hchain : pathSteps P) :
    calculate_heuristic a b + 1 ≤ P.length := by
  cases P with
  | nil => simp at hhead
  | cons p0 P' =>
    have hp0 : p0 = a := by simpa using hhead
    rw [hp0] at hchain hlast
    have := manhattan_le_steps P' a b hchain hlast
    simp only [List.length_cons]
    omega

/-! ## Claim theorems -/

/-- C1: For every grid, every Free start cell and Free goal cell within
bounds, if `a_star_search` returns a non-empty path then that path is of
minimal length: no valid 4-directional path from start to goal through Free
in-bounds cells has fewer cells. -/
theorem C1_astar_path_minimal (start goal : Point) (rows cols : Int)
    (grid : List (List Nat)) (path : List Point)
    (hs : is_valid start rows cols grid = true)
    (hg : is_valid goal rows cols grid = true)
    (hres : a_star_search start goal rows cols grid = some path)
    (hne : path ≠ []) :
    ∀ P, ValidPath rows cols grid start goal P → path.length ≤ P.length := by
  obtain ⟨res, hres2, _, h2⟩ := astar_main start goal rows cols grid
  rw [hres] at hres2
  injection hres2 with hres2
  subst hres2
  intro P hP
  exact (h2 hne).2.2.2.2 P hP.toSemiPath

/-- Witness for C1 on the free 1×2 grid: the two-cell path returned from
`(0,0)` to `(0,1)` is no longer than the straight two-cell path. -/
theorem C1_witness :
    is_valid ⟨0, 0⟩ 1 2 [[0, 0]] = true ∧ is_valid ⟨0, 1⟩ 1 2 [[0, 0]] = true ∧
    a_star_search ⟨0, 0⟩ ⟨0, 1⟩ 1 2 [[0, 0]] = some [⟨0, 0⟩, ⟨0, 1⟩] ∧
    ([⟨0, 0⟩, ⟨0, 1⟩] : List Point).length ≤ ([⟨0, 0⟩, ⟨0, 1⟩] : List Point).length :=
  ⟨by decide, by decide, by decide,
    C1_astar_path_minimal ⟨0, 0⟩ ⟨0, 1⟩ 1 2 [[0, 0]] [⟨0, 0⟩, ⟨0, 1⟩] (by decide)
      (by decide) (by decide) (by decide) [⟨0, 0⟩, ⟨0, 1⟩]
      ⟨rfl, rfl, List.chain'_cons.mpr ⟨by decide, List.chain'_singleton _⟩, by decide⟩⟩

/-- C2 (counterexample): the claim as stated fails.  On the 1×2 grid
`[[1,0]]` with the in-bounds Blocked start `(0,0)` and goal `(0,1)`,
`a_star_search` returns the non-empty path `[(0,0),(0,1)]`, and its first
cell `(0,0)` is Blocked (the grid marks it `1`): the start cell is enqueued
without any validity check (source line 53). -/
theorem C2_counterexample :
    a_star_search ⟨0, 0⟩ ⟨0, 1⟩ 1 2 [[1, 0]] = some [⟨0, 0⟩, ⟨0, 1⟩] ∧
    (⟨0, 0⟩ : Point) ∈ [(⟨0, 0⟩ : Point), ⟨0, 1⟩] ∧
    gridCell [[1, 0]] ⟨0, 0⟩ = some 1 := by decide

/-- C2 (amended): every non-empty path returned by `a_star_search` has
consecutive cells differing by exactly one orthogonal step, starts at
`start`, ends at `goal`, and every cell except possibly the first (the
start cell, which is enqueued without a validity check) is in bounds and
not Blocked. -/
theorem C2_astar_path_wellformed (start goal : Point) (rows cols : Int)
    (grid : List (List Nat)) (path : List Point)
    (hres : a_star_search start goal rows cols grid = some path)
    (hne : path ≠ []) :
    path.head? = some start ∧ path.getLast? = some goal ∧ pathSteps path ∧
    ∀ q ∈ path.tail, is_valid q rows cols grid = true := by
  obtain ⟨res, hres2, _, h2⟩ := astar_main start goal rows cols grid
  rw [hres] at hres2
  injection hres2 with hres2
  subst hres2
  obtain ⟨h1, h2', h3, h4, _⟩ := h2 hne
  exact ⟨h1, h2', h3, h4⟩

/-- Witness for the amended C2 on the free 1×2 grid. -/
theorem C2_witness :
    ([⟨0, 0⟩, ⟨0, 1⟩] : List Point).head? = some ⟨0, 0⟩ ∧
    ([⟨0, 0⟩, ⟨0, 1⟩] : List Point).getLast? = some ⟨0, 1⟩ ∧
    pathSteps [⟨0, 0⟩, ⟨0, 1⟩] ∧
    is_valid ⟨0, 1⟩ 1 2 [[0, 0]] = true :=
  have h := C2_astar_path_wellformed ⟨0, 0⟩ ⟨0, 1⟩ 1 2 [[0, 0]] [⟨0, 0⟩, ⟨0, 1⟩]
    (by decide) (by decide)
  ⟨h.1, h.2.1, h.2.2.1, h.2.2.2 ⟨0, 1⟩ (by decide)⟩

/-- C3: for an in-bounds Free start and goal, if no valid 4-directional
path from start to goal exists, `a_star_search` returns the empty sequence
(the NotFound indicator, produced after the frontier is exhausted), and in
particular it returns a value rather than failing. -/
theorem C3_astar_no_path (start goal : Point) (rows cols : Int)
    (grid : List (List Nat))
    (hs : is_valid start rows cols grid = true)
    (hg : is_valid goal rows cols grid = true)
    (hnopath : ∀ P, ¬ ValidPath rows cols grid start goal P) :
    a_star_search start goal rows cols grid = some [] := by
  obtain ⟨res, hres, _, h2⟩ := astar_main start goal rows cols grid
  by_cases hres_nil : res = []
  · rw [hres_nil] at hres
    exact hres
  · exfalso
    obtain ⟨hhead, hlast, hchain, htail, _⟩ := h2 hres_nil
    apply hnopath res
    refine ⟨hhead, hlast, hchain, ?_⟩
    cases res with
    | nil => exact absurd rfl hres_nil
    | cons r0 rt =>
      intro c hc
      rcases List.mem_cons.mp hc with hc0 | hc1
      · have hr0 : r0 = start := by simpa using hhead
        rw [hc0, hr0]
        exact hs
      · exact htail c hc1

/-- Witness for C3: on the 1×3 grid `[[0,1,0]]` the goal `(0,2)` is cut off
from `(0,0)` by the obstacle at `(0,1)`, and the search returns
`some []`. -/
theorem C3_witness :
    is_valid ⟨0, 0⟩ 1 3 [[0, 1, 0]] = true ∧
    is_valid ⟨0, 2⟩ 1 3 [[0, 1, 0]] = true ∧
    a_star_search ⟨0, 0⟩ ⟨0, 2⟩ 1 3 [[0, 1, 0]] = some [] := by
  refine ⟨by decide, by decide, ?_⟩
  have hnopath : ∀ P, ¬ ValidPath 1 3 [[0, 1, 0]] ⟨0, 0⟩ ⟨0, 2⟩ P := by
    obtain ⟨res, hres, h1, _⟩ := astar_main ⟨0, 0⟩ ⟨0, 2⟩ 1 3 [[0, 1, 0]]
    have hres0 : a_star_search ⟨0, 0⟩ ⟨0, 2⟩ 1 3 [[0, 1, 0]] = some [] := by decide
    rw [hres0] at hres
    injection hres with hres
    intro P hP
    exact h1 hres.symm P hP.toSemiPath
  exact C3_astar_no_path ⟨0, 0⟩ ⟨0, 2⟩ 1 3 [[0, 1, 0]] (by decide) (by decide) hnopath

/-- C4: on a grid with no obstacles, for every in-bounds start and goal,
`a_star_search` returns a path of exactly
`|start.x - goal.x| + |start.y - goal.y| + 1` cells. -/
theorem C4_astar_free_grid (start goal : Point) (rows cols : Int)
    (grid : List (List Nat))
    (hfree : ∀ p : Point, 0 ≤ p.x → p.x < rows → 0 ≤ p.y → p.y < cols →
      is_valid p rows cols grid = true)
    (hs : 0 ≤ start.x ∧ start.x < rows ∧ 0 ≤ start.y ∧ start.y < cols)
    (hg : 0 ≤ goal.x ∧ goal.x < rows ∧ 0 ≤ goal.y ∧ goal.y < cols) :
    ∃ path, a_star_search start goal rows cols grid = some path ∧
      path.length = (start.x - goal.x).natAbs + (start.y - goal.y).natAbs + 1 := by
  obtain ⟨shead, slast, schain, slen, sbox⟩ :=
    staircase_spec goal (calculate_heuristic start goal) start rfl
  have hSvalid : ValidPath rows cols grid start goal
      (staircase goal (calculate_heuristic start goal) start) := by
    refine ⟨shead, slast, schain, ?_⟩
    intro c hc
    obtain ⟨b1, b2, b3, b4⟩ := sbox c hc
    refine hfree c ?_ ?_ ?_ ?_
    · omega
    · omega
    · omega
    · omega
  obtain ⟨res, hres, h1, h2⟩ := astar_main start goal rows cols grid
  have hres_ne : res ≠ [] := by
    intro hcon
    exact h1 hcon _ hSvalid.toSemiPath
  obtain ⟨hhead, hlast, hchain, _, hopt⟩ := h2 hres_ne
  refine ⟨res, hres, ?_⟩
  have hub : res.length ≤ calculate_heuristic start goal + 1 := by
    have := hopt _ hSvalid.toSemiPath
    omega
  have hlb : calculate_heuristic start goal + 1 ≤ res.length :=
    length_ge_manhattan hhead hlast hchain
  have : res.length = calculate_heuristic start goal + 1 := by omega
  rw [this]
  rfl

/-- Witness for C4 on the free 2×2 grid from `(0,0)` to `(1,1)`. -/
theorem C4_witness :
    a_star_search ⟨0, 0⟩ ⟨1, 1⟩ 2 2 [[0, 0], [0, 0]] =
      some [⟨0, 0⟩, ⟨1, 0⟩, ⟨1, 1⟩] ∧
    ([⟨0, 0⟩, ⟨1, 0⟩, ⟨1, 1⟩] : List Point).length =
      ((0 : Int) - 1).natAbs + ((0 : Int) - 1).natAbs + 1 := by
  have hfree : ∀ p : Point, 0 ≤ p.x → p.x < 2 → 0 ≤ p.y → p.y < 2 →
      is_valid p 2 2 [[0, 0], [0, 0]] = true := by
    intro p h1 h2 h3 h4
    obtain ⟨px, py⟩ := p
    have h1' : 0 ≤ px := h1
    have h2' : px < 2 := h2
    have h3' : 0 ≤ py := h3
    have h4' : py < 2 := h4
    have hx : px = 0 ∨ px = 1 := by omega
    have hy : py = 0 ∨ py = 1 := by omega
    rcases hx with rfl | rfl <;> rcases hy with rfl | rfl <;> decide
  obtain ⟨path, hres, hlen⟩ :=
    C4_astar_free_grid ⟨0, 0⟩ ⟨1, 1⟩ 2 2 [[0, 0], [0, 0]] hfree (by decide) (by decide)
  have hconc : a_star_search ⟨0, 0⟩ ⟨1, 1⟩ 2 2 [[0, 0], [0, 0]] =
      some [⟨0, 0⟩, ⟨1, 0⟩, ⟨1, 1⟩] := by decide
  refine ⟨hconc, ?_⟩
  rw [hconc] at hres
  injection hres with hres
  rw [hres]
  exact hlen

/-- C5: for every valid Free cell `p`, searching from `p` to `p` returns
the single-element path `[p]`: the first pop of the frontier matches the
goal immediately. -/
theorem C5_astar_self (p : Point) (rows cols : Int) (grid : List (List Nat))
    (hp : is_valid p rows cols grid = true) :
    a_star_search p p rows cols grid = some [p] := by
  obtain ⟨f, hf⟩ : ∃ f, searchFuel rows cols = f + 1 :=
    ⟨5 * ((rows.toNat * cols.toNat + 1) * (rows.toNat * cols.toNat + 1)) + 1, by
      simp only [searchFuel]⟩
  show aStarLoop p p rows cols grid (searchFuel rows cols)
    ⟨[⟨p, 0, calculate_heuristic p p, calculate_heuristic p p, ⟨-1, -1⟩⟩],
      [(p, 0)], []⟩ = some [p]
  rw [hf]
  simp only [aStarLoop, popMin]
  simp [reconstruct]

/-- Witness for C5 at the free cell `(0,0)` of the 1×1 grid. -/
theorem C5_witness :
    is_valid ⟨0, 0⟩ 1 1 [[0]] = true ∧
    a_star_search ⟨0, 0⟩ ⟨0, 0⟩ 1 1 [[0]] = some [⟨0, 0⟩] :=
  ⟨by decide, C5_astar_self ⟨0, 0⟩ 1 1 [[0]] (by decide)⟩

/-- C6 (counterexample): the claim as stated fails.  On the 1×2 grid
`[[1,0]]` the start `(0,0)` is in bounds and Blocked and the goal `(0,1)`
is distinct, yet `a_star_search` does not return the empty NotFound result:
it finds the path `[(0,0),(0,1)]`, because the start cell is inserted into
the frontier without a validity check and only neighbours are checked. -/
theorem C6_counterexample :
    gridCell [[1, 0]] ⟨0, 0⟩ = some 1 ∧ (⟨0, 1⟩ : Point) ≠ ⟨0, 0⟩ ∧
    a_star_search ⟨0, 0⟩ ⟨0, 1⟩ 1 2 [[1, 0]] ≠ some [] := by decide

/-- C6 (amended): an in-bounds Blocked start cell is still explored as the
origin (it is enqueued without a validity check), so the search may return
a non-empty path; any path it returns starts at the blocked start cell, and
blocked cells only fail the validity check when reached as neighbours, so
every returned cell after the first is in bounds and Free. -/
theorem C6_blocked_start_explored (start goal : Point) (rows cols : Int)
    (grid : List (List Nat)) (path : List Point)
    (hin : 0 ≤ start.x ∧ start.x < rows ∧ 0 ≤ start.y ∧ start.y < cols)
    (hblocked : gridCell grid start = some 1) (hne_goal : goal ≠ start)
    (hres : a_star_search start goal rows cols grid = some path)
    (hne : path ≠ []) :
    path.head? = some start ∧
    ∀ q ∈ path.tail, is_valid q rows cols grid = true := by
  obtain ⟨res, hres2, _, h2⟩ := astar_main start goal rows cols grid
  rw [hres] at hres2
  injection hres2 with hres2
  subst hres2
  obtain ⟨h1, _, _, h4, _⟩ := h2 hne
  exact ⟨h1, h4⟩

/-- Witness for the amended C6 on the blocked-start 1×2 grid. -/
theorem C6_witness :
    ([⟨0, 0⟩, ⟨0, 1⟩] : List Point).head? = some ⟨0, 0⟩ ∧
    is_valid ⟨0, 1⟩ 1 2 [[1, 0]] = true :=
  have h := C6_blocked_start_explored ⟨0, 0⟩ ⟨0, 1⟩ 1 2 [[1, 0]] [⟨0, 0⟩, ⟨0, 1⟩]
    (by decide) (by decide) (by decide) (by decide) (by decide)
  ⟨h.1, h.2 ⟨0, 1⟩ (by decide)⟩

/-- C7: the cost map is monotone and pushed nodes carry the best known
cost.  `relaxStep` is the only operation that modifies `g_costs` or pushes
a node during the loop (the initial insertion records `g_costs[start] = 0`
and pushes the start node with that same cost), and across one `relaxStep`:
every recorded cost can only decrease, and if a node is pushed then its
`g_cost` equals the cost recorded for its cell at that moment. -/
theorem C7_gcosts_monotone_push_best (goal : Point) (rows cols : Int)
    (grid : List (List Nat)) (cur : Node) (st : AState) (d : Int × Int) :
    (∀ c v, lookupPt st.g_costs c = some v →
      ∃ v', lookupPt (relaxStep goal rows cols grid cur st d).g_costs c = some v' ∧
        v' ≤ v) ∧
    ((relaxStep goal rows cols grid cur st d).open_list = st.open_list ∨
      ∃ n : Node, (relaxStep goal rows cols grid cur st d).open_list =
        st.open_list ++ [n] ∧
        lookupPt (relaxStep goal rows cols grid cur st d).g_costs n.p =
          some n.g_cost) := by
  rcases relaxStep_spec goal rows cols grid cur st d with ⟨heq, _⟩ | ⟨hv, hnew, heq⟩
  · rw [heq]
    exact ⟨fun c v h => ⟨v, h, le_refl v⟩, Or.inl rfl⟩
  · rw [heq]
    constructor
    · intro c v h
      show ∃ v', lookupPt (insertPt st.g_costs ⟨cur.p.x + d.1, cur.p.y + d.2⟩
        (cur.g_cost + 1)) c = some v' ∧ v' ≤ v
      rw [lookupPt_insertPt]
      by_cases hc : c = (⟨cur.p.x + d.1, cur.p.y + d.2⟩ : Point)
      · rw [if_pos hc]
        rw [hc] at h
        exact ⟨cur.g_cost + 1, rfl, le_of_lt (hnew v h)⟩
      · rw [if_neg hc]
        exact ⟨v, h, le_refl v⟩
    · refine Or.inr ⟨_, rfl, ?_⟩
      show lookupPt (insertPt st.g_costs ⟨cur.p.x + d.1, cur.p.y + d.2⟩
        (cur.g_cost + 1)) ⟨cur.p.x + d.1, cur.p.y + d.2⟩ = some (cur.g_cost + 1)
      rw [lookupPt_insertPt, if_pos rfl]

/-- C8: `a_star_search` terminates on every input: the fuel
`searchFuel rows cols` strictly dominates the loop measure, which decreases
on every iteration because a cell is re-inserted only when its recorded
cost strictly improves; hence the loop embedding never exhausts its fuel
and always produces a result. -/
theorem C8_astar_terminates (start goal : Point) (rows cols : Int)
    (grid : List (List Nat)) :
    (a_star_search start goal rows cols grid).isSome := by
  obtain ⟨res, hres, _, _⟩ := astar_main start goal rows cols grid
  rw [hres]
  rfl

/-- C9: on a well-shaped `rows × cols` grid, every grid access performed by
the search is in bounds: the checked variant of `is_valid` (which fails on
an out-of-range read) never fails and agrees with `is_valid` on every
point, including points outside the grid bounds; and `a_star_search` is
total on all coordinate inputs, returning a path or the empty sequence. -/
theorem C9_grid_access_safe (rows cols : Int) (grid : List (List Nat))
    (hshape : WellShaped grid rows cols) :
    (∀ p : Point, is_validChecked p rows cols grid = some (is_valid p rows cols grid)) ∧
    ∀ start goal : Point, (a_star_search start goal rows cols grid).isSome := by
  constructor
  · intro p
    by_cases hb : 0 ≤ p.x ∧ p.x < rows ∧ 0 ≤ p.y ∧ p.y < cols
    · obtain ⟨h1, h2, h3, h4⟩ := hb
      obtain ⟨hsh1, hsh2⟩ := hshape
      have hxlt : p.x.toNat < grid.length := by
        rw [hsh1]
        omega
      have hrow : grid.get? p.x.toNat = some (grid.get ⟨p.x.toNat, hxlt⟩) :=
        List.get?_eq_get hxlt
      have hrowlen : (grid.get ⟨p.x.toNat, hxlt⟩).length = cols.toNat :=
        hsh2 _ (grid.get_mem _ _)
      have hylt : p.y.toNat < (grid.get ⟨p.x.toNat, hxlt⟩).length := by
        rw [hrowlen]
        omega
      have hcellv : (grid.get ⟨p.x.toNat, hxlt⟩).get? p.y.toNat =
          some ((grid.get ⟨p.x.toNat, hxlt⟩).get ⟨p.y.toNat, hylt⟩) :=
        List.get?_eq_get hylt
      have hcell : gridCell grid p =
          some ((grid.get ⟨p.x.toNat, hxlt⟩).get ⟨p.y.toNat, hylt⟩) := by
        simp only [gridCell, hrow, hcellv]
      rw [show is_validChecked p rows cols grid =
          some (((grid.get ⟨p.x.toNat, hxlt⟩).get ⟨p.y.toNat, hylt⟩) == 0) from by
        simp only [is_validChecked, hcell]
        rw [if_pos ⟨h1, h2, h3, h4⟩]]
      congr 1
      simp only [is_valid, hcell]
      simp [h1, h2, h3, h4]
    · have hiv : is_valid p rows cols grid = false := by
        cases hiv2 : is_valid p rows cols grid
        · rfl
        · exact absurd ⟨(is_valid_bounds hiv2).1, (is_valid_bounds hiv2).2.1,
            (is_valid_bounds hiv2).2.2.1, (is_valid_bounds hiv2).2.2.2⟩ hb
      rw [hiv]
      simp only [is_validChecked]
      rw [if_neg hb]
  · intro start goal
    obtain ⟨res, hres, _, _⟩ := astar_main start goal rows cols grid
    rw [hres]
    rfl

/-- Witness for C9 on the well-shaped 1×2 grid, applied at an out-of-bounds
probe point and an out-of-bounds start. -/
theorem C9_witness :
    is_validChecked ⟨5, 7⟩ 1 2 [[0, 0]] = some (is_valid ⟨5, 7⟩ 1 2 [[0, 0]]) ∧
    (a_star_search ⟨-3, 9⟩ ⟨0, 1⟩ 1 2 [[0, 0]]).isSome :=
  ⟨(C9_grid_access_safe 1 2 [[0, 0]] (by constructor <;> decide)).1 ⟨5, 7⟩,
    (C9_grid_access_safe 1 2 [[0, 0]] (by constructor <;> decide)).2 ⟨-3, 9⟩ ⟨0, 1⟩⟩

/-- C10: `a_star_search` is deterministic: two calls on identical grids,
dimensions, start and goal return identical cell sequences (the embedding
is a pure function; in particular tie-breaking among equal-`f` frontier
nodes is fixed by `popMin`). -/
theorem C10_astar_deterministic (start goal : Point) (rows cols : Int)
    (grid : List (List Nat)) (start' goal' : Point) (rows' cols' : Int)
    (grid' : List (List Nat)) (h1 : start = start') (h2 : goal = goal')
    (h3 : rows = rows') (h4 : cols = cols') (h5 : grid = grid') :
    a_star_search start goal rows cols grid =
      a_star_search start' goal' rows' cols' grid' := by
  rw [h1, h2, h3, h4, h5]

/-- Witness for C10 at a concrete input. -/
theorem C10_witness :
    a_star_search ⟨0, 0⟩ ⟨0, 1⟩ 1 2 [[0, 0]] =
      a_star_search ⟨0, 0⟩ ⟨0, 1⟩ 1 2 [[0, 0]] :=
  C10_astar_deterministic ⟨0, 0⟩ ⟨0, 1⟩ 1 2 [[0, 0]] ⟨0, 0⟩ ⟨0, 1⟩ 1 2 [[0, 0]]
    rfl rfl rfl rfl rfl
